import Mathlib

/-!
Verification of the cache-simulator core (multi-level cache hierarchy with
inclusive/exclusive policies) against its natural-language specification.

The definitions below are a shallow embedding of the C++ sources:
  * `getTag` / `getIndex` / `getBlockOffset`  — `MemoryAddress` decoders
    (the guarded implementations in `src/address.cpp`); the `…Ck` variants
    are the same functions with every C++ shift made explicit as a checked
    operation returning `none` when the shift amount would be ≥ 64
    (undefined behaviour in C++).
  * `CacheConfig` with `getNumSets` / `getNumWays` / `getBlockOffsetBits` /
    `getIndexBits` — `cache.hpp`.  The `policy` name string and the `level`
    field are omitted: the replacement policy is passed explicitly as a
    `Policy` value and `level` is never read by the access engine.
  * `lruGetVictim` / `lruOnAccess` — the LRU policy of `src/cache_policy.cpp`.
  * `fifoQueueGetVictim` / `fifoQueueOnAccess` — the queue-based FIFO policy
    (the `push_back` / `front()` version); `fifoCtrGetVictim` /
    `fifoCtrOnAccess` — the circular-counter FIFO policy.  Both are modelled
    for a single set: the C++ keys its per-set containers by the set index
    and distinct sets never interact.
  * `Cache.access`, `Cache.allocateEntry`, `Cache.forceEntry`,
    `Cache.invalidateEntry`, `Cache.getEntry`, `Cache.reconstructAddress`
    — `cache.cpp`.
  * `hierAccess` — `CacheHierarchy::access` with its eviction tracker,
    back-invalidation helper and exclusive promotion / victim caching.
  * `collectAMAT` — the AMAT portion of `PerformanceAnalyzer::collectMetrics`
    (C++ `double` arithmetic modelled over `ℚ`).
-/

namespace CacheSim

/-- Memory access kind (`AccessType` in `cache.hpp`). -/
inductive AccessType where
  | Read
  | Write
deriving DecidableEq, Repr

/-- One cache block slot (`CacheEntry` in `cache.hpp`): valid bit, dirty bit
and tag.  A default-constructed entry is invalid with tag 0, which is also
the state produced by `CacheEntry::reset`. -/
structure CacheEntry where
  valid : Bool := false
  dirty : Bool := false
  tag : Nat := 0
deriving DecidableEq, Repr

/-- Cache organization (`CacheConfig::Organization`). -/
inductive Organization where
  | DirectMapped
  | SetAssociative
  | FullyAssociative
deriving DecidableEq, Repr

/-- Inclusion policy of a level relative to the level above (`InclusionPolicy`). -/
inductive InclusionPolicy where
  | Inclusive
  | Exclusive
  | NINE
deriving DecidableEq, Repr

/-- Cache geometry and behaviour flags (`CacheConfig` in `cache.hpp`).
The replacement-policy name string and the `level` number are omitted:
the policy is supplied explicitly and `level` is never read by the engine. -/
structure CacheConfig where
  organization : Organization
  size : Nat
  blockSize : Nat
  associativity : Nat
  accessLatency : Nat
  writeBack : Bool
  writeAllocate : Bool
  inclusionPolicy : InclusionPolicy := .Inclusive
deriving DecidableEq, Repr

/-- `CacheConfig::getNumSets`. -/
def CacheConfig.getNumSets (c : CacheConfig) : Nat :=
  match c.organization with
  | .FullyAssociative => 1
  | .DirectMapped => c.size / c.blockSize
  | .SetAssociative => c.size / (c.blockSize * c.associativity)

/-- `CacheConfig::getNumWays`. -/
def CacheConfig.getNumWays (c : CacheConfig) : Nat :=
  match c.organization with
  | .FullyAssociative => c.size / c.blockSize
  | .DirectMapped => 1
  | .SetAssociative => c.associativity

/-- The halving loop `while (temp > 1) { temp >>= 1; count++ }` of
`getBlockOffsetBits` / `getIndexBits`, with an explicit fuel bounding the
iteration count (the loop runs fewer than `temp` iterations). -/
def log2Loop : Nat → Nat → Nat
  | 0, _ => 0
  | fuel + 1, temp => if 1 < temp then log2Loop fuel (temp / 2) + 1 else 0

/-- Number of halvings needed to bring `n` to 1 — `floor (log2 n)` for
`n ≥ 1`, and 0 for `n = 0`, exactly as the C++ loop computes. -/
def countBits (n : Nat) : Nat := log2Loop n n

/-- `CacheConfig::getBlockOffsetBits`. -/
def CacheConfig.getBlockOffsetBits (c : CacheConfig) : Nat :=
  countBits c.blockSize

/-- `CacheConfig::getIndexBits`: 0 for fully associative, otherwise the same
halving loop applied to `getNumSets`. -/
def CacheConfig.getIndexBits (c : CacheConfig) : Nat :=
  if c.organization = .FullyAssociative then 0 else countBits c.getNumSets

/-! ### Address decoding (`src/address.cpp`, guarded implementations)

Addresses are 64-bit; a value `a < 2^64` is maintained by all callers.
`b` is the number of block-offset bits, `s` the number of index bits. -/

/-- `MemoryAddress::getTag`: returns 0 when offset+index bits cover the whole
address (guard against a shift by ≥ 64), otherwise shifts both fields out. -/
def getTag (a b s : Nat) : Nat :=
  if 64 ≤ b + s then 0 else a >>> (b + s)

/-- `MemoryAddress::getIndex`: 0 when no index bits are requested or the
offset covers the whole address; otherwise shifts out the offset and masks
the low `s` bits (`x & ((1 << s) - 1) = x % 2^s`). -/
def getIndex (a b s : Nat) : Nat :=
  if s = 0 then 0
  else if 64 ≤ b then 0
  else
    let sh := a >>> b
    if 64 ≤ s then sh else sh % 2 ^ s

/-- `MemoryAddress::getBlockOffset`. -/
def getBlockOffset (a b : Nat) : Nat :=
  if b = 0 then 0
  else if 64 ≤ b then a
  else a % 2 ^ b

/-- A right shift of a 64-bit value, `none` when the C++ shift would be
undefined (shift amount ≥ 64). -/
def shrCk (x n : Nat) : Option Nat :=
  if n < 64 then some (x >>> n) else none

/-- A left shift of a 64-bit value, `none` when the C++ shift would be
undefined (shift amount ≥ 64). -/
def shlCk (x n : Nat) : Option Nat :=
  if n < 64 then some ((x <<< n) % 2 ^ 64) else none

/-- `MemoryAddress::getTag` with its single shift made explicit: the result
is `none` exactly when the C++ code would execute an undefined shift. -/
def getTagCk (a b s : Nat) : Option Nat :=
  if 64 ≤ b + s then some 0 else shrCk a (b + s)

/-- `MemoryAddress::getIndex` with its shifts made explicit. -/
def getIndexCk (a b s : Nat) : Option Nat :=
  if s = 0 then some 0
  else if 64 ≤ b then some 0
  else (shrCk a b).bind fun sh =>
    if 64 ≤ s then some sh
    else (shlCk 1 s).map fun m => sh &&& (m - 1)

/-- `MemoryAddress::getBlockOffset` with its shifts made explicit. -/
def getBlockOffsetCk (a b : Nat) : Option Nat :=
  if b = 0 then some 0
  else if 64 ≤ b then some a
  else (shlCk 1 b).map fun m => a &&& (m - 1)

/-! ### Replacement policies -/

/-- Abstract per-cache replacement policy: a state type with the two
operations of `ReplacementPolicy` (`getVictim` may update state, as the
circular-counter FIFO does). -/
structure Policy (π : Type) where
  getVictim : π → Nat → Nat → Nat × π
  onAccess : π → Nat → Nat → π

/-- Lookup in an association list keyed by set index (models the
`std::unordered_map` keyed by set). -/
def alFind {α : Type} (m : List (Nat × α)) (k : Nat) : Option α :=
  (m.find? fun p => p.1 == k).map fun p => p.2

/-- Update / insert in an association list keyed by set index. -/
def alSet {α : Type} (m : List (Nat × α)) (k : Nat) (v : α) : List (Nat × α) :=
  match m with
  | [] => [(k, v)]
  | p :: rest => if p.1 == k then (k, v) :: rest else p :: alSet rest k v

/-- The `for (way = 0; way < numWays; ++way)` search for the first way not
present in the policy's bookkeeping; `none` when every way is tracked. -/
def firstNotMemAux (l : List Nat) (w : Nat) : Nat → Option Nat
  | 0 => none
  | fuel + 1 => if l.contains w then firstNotMemAux l (w + 1) fuel else some w

/-- First way in `[0, n)` not contained in `l`. -/
def firstNotMem (l : List Nat) (n : Nat) : Option Nat :=
  firstNotMemAux l 0 n

/-- Per-set recency lists of `LRUPolicy` (`lruList_`), keyed by set. -/
def LRUSt : Type := List (Nat × List Nat)

/-- `LRUPolicy::onAccess` (`src/cache_policy.cpp`): create the set's list on
first access, otherwise move (or insert) the way to the MRU front. -/
def lruOnAccess (st : LRUSt) (set way : Nat) : LRUSt :=
  match alFind st set with
  | none => alSet st set [way]
  | some l =>
    if l.contains way then alSet st set (way :: l.erase way)
    else alSet st set (way :: l)

/-- `LRUPolicy::getVictim` (`src/cache_policy.cpp`): way 0 for an unknown
set; the lowest-numbered untracked way while the set is not full; otherwise
the back of the recency list (the LRU way). -/
def lruGetVictim (st : LRUSt) (set numWays : Nat) : Nat × LRUSt :=
  match alFind st set with
  | none => (0, st)
  | some l =>
    if l.length < numWays then
      match firstNotMem l numWays with
      | some w => (w, st)
      | none => (l.getLastD 0, st)
    else (l.getLastD 0, st)

/-- The LRU policy packaged for use by a cache. -/
def lruPolicy : Policy LRUSt :=
  { getVictim := lruGetVictim, onAccess := lruOnAccess }

/-- A trivial policy that always nominates way 0 (used to instantiate
theorems that quantify over an arbitrary in-range policy). -/
def zeroPolicy : Policy Unit :=
  { getVictim := fun st _ _ => (0, st), onAccess := fun st _ _ => st }

/-- `FIFOPolicy::onAccess`, queue-based variant (`src/address.cpp`): append
a way on its first observation only.  Single-set model: the C++ keys one
queue per set. -/
def fifoQueueOnAccess (q : List Nat) (way : Nat) : List Nat :=
  if q.contains way then q else q ++ [way]

/-- `FIFOPolicy::getVictim`, queue-based variant (`src/address.cpp`): the
lowest untracked way while the queue is short of `numWays`, otherwise the
front of the queue.  Note that the queue is never popped. -/
def fifoQueueGetVictim (q : List Nat) (numWays : Nat) : Nat :=
  if q.length < numWays then
    match firstNotMem q numWays with
    | some w => w
    | none => q.headD 0
  else q.headD 0

/-- `FIFOPolicy::onAccess`, circular-counter variant
(`src/cache_policy.cpp`): record the way in `usedWays_` on first
observation.  State is `(circular counter, used ways)` for one set. -/
def fifoCtrOnAccess (st : Nat × List Nat) (way : Nat) : Nat × List Nat :=
  (st.1, if st.2.contains way then st.2 else st.2 ++ [way])

/-- `FIFOPolicy::getVictim`, circular-counter variant
(`src/cache_policy.cpp`): the lowest unused way while filling; once full,
the counter value, advancing the counter modulo `numWays`. -/
def fifoCtrGetVictim (st : Nat × List Nat) (numWays : Nat) : Nat × (Nat × List Nat) :=
  if st.2.length < numWays then
    match firstNotMem st.2 numWays with
    | some w => (w, st)
    | none => (st.1, ((st.1 + 1) % numWays, st.2))
  else (st.1, ((st.1 + 1) % numWays, st.2))

/-! ### One cache level (`cache.cpp`) -/

/-- `CacheResult` (`cache.hpp`). -/
structure CacheResult where
  hit : Bool
  latency : Nat
  writeBack : Bool := false
  evictedAddress : Option Nat := none
  evictedEntry : Option CacheEntry := none
deriving DecidableEq, Repr

/-- One cache level: configuration, replacement policy with its state, the
(set × way) entry matrix and hit/miss counters (`Cache` in `cache.hpp`). -/
structure Cache (π : Type) where
  cfg : CacheConfig
  pol : Policy π
  polSt : π
  entries : List (List CacheEntry)
  hits : Nat := 0
  misses : Nat := 0

/-- `Cache::Cache(config)`: an entry matrix of `getNumSets` rows of
`getNumWays` default (invalid) entries, zero counters.  The constructor
performs no validation of the geometry. -/
def cacheInit {π : Type} (cfg : CacheConfig) (pol : Policy π) (st : π) : Cache π :=
  { cfg := cfg, pol := pol, polSt := st,
    entries := List.replicate cfg.getNumSets (List.replicate cfg.getNumWays {}) }

/-- `Cache::getSetAndTag`. -/
def Cache.getSetAndTag {π : Type} (c : Cache π) (a : Nat) : Nat × Nat :=
  (getIndex a c.cfg.getBlockOffsetBits c.cfg.getIndexBits,
   getTag a c.cfg.getBlockOffsetBits c.cfg.getIndexBits)

/-- The `for (way …)` scan of `Cache::findEntry` over one set's ways. -/
def findWay (row : List CacheEntry) (tag : Nat) : Option Nat :=
  row.findIdx? fun e => e.valid && e.tag == tag

/-- `Cache::findEntry`: first way of the set holding `tag` with `valid`. -/
def Cache.findEntry {π : Type} (c : Cache π) (set tag : Nat) : Option Nat :=
  findWay (c.entries.getD set []) tag

/-- `Cache::reconstructAddress`: `(tag << (B+S)) | (set << B)` in 64-bit
arithmetic (each C++ shift wraps modulo `2^64`). -/
def CacheConfig.reconstructAddress (cfg : CacheConfig) (set tag : Nat) : Nat :=
  ((tag <<< (cfg.getBlockOffsetBits + cfg.getIndexBits)) % 2 ^ 64) |||
    ((set <<< cfg.getBlockOffsetBits) % 2 ^ 64)

/-- `Cache::allocateEntry`: choose a victim way, record the displaced entry
(and its reconstructed address) when it was valid, flag a write-back when it
was valid and dirty under write-back, install the new entry and notify the
policy.  `latency` is 0 ("don't double-count"). -/
def Cache.allocateEntry {π : Type} (c : Cache π) (set tag : Nat) (t : AccessType) :
    CacheResult × Cache π :=
  let row := c.entries.getD set []
  let vp := c.pol.getVictim c.polSt set row.length
  let way := vp.1
  let victim := row.getD way {}
  let evAddr : Option Nat :=
    if victim.valid then some (c.cfg.reconstructAddress set victim.tag) else none
  let evEnt : Option CacheEntry := if victim.valid then some victim else none
  let wb := victim.valid && (c.cfg.writeBack && victim.dirty)
  let newE : CacheEntry := { valid := true, dirty := t == .Write && c.cfg.writeBack, tag := tag }
  ({ hit := false, latency := 0, writeBack := wb,
     evictedAddress := evAddr, evictedEntry := evEnt },
   { c with entries := c.entries.set set (row.set way newE),
            polSt := c.pol.onAccess vp.2 set way })

/-- `Cache::access`: hit → bump hits, notify policy, set dirty on write under
write-back; miss → bump misses and allocate for reads and write-allocate
writes.  The miss path copies `latency`, `writeBack` and `evictedAddress`
from the allocation result but not `evictedEntry`. -/
def Cache.access {π : Type} (c : Cache π) (a : Nat) (t : AccessType) :
    CacheResult × Cache π :=
  let st := c.getSetAndTag a
  let set := st.1
  let tag := st.2
  match c.findEntry set tag with
  | some way =>
    let c1 : Cache π := { c with hits := c.hits + 1, polSt := c.pol.onAccess c.polSt set way }
    let c2 : Cache π :=
      if t == .Write && c.cfg.writeBack then
        let row := c1.entries.getD set []
        let e := row.getD way {}
        { c1 with entries := c1.entries.set set (row.set way { e with dirty := true }) }
      else c1
    ({ hit := true, latency := c.cfg.accessLatency }, c2)
  | none =>
    let c1 : Cache π := { c with misses := c.misses + 1 }
    if t == .Read || (t == .Write && c.cfg.writeAllocate) then
      let ar := c1.allocateEntry set tag t
      ({ hit := false, latency := c.cfg.accessLatency + ar.1.latency,
         writeBack := ar.1.writeBack, evictedAddress := ar.1.evictedAddress },
       ar.2)
    else
      ({ hit := false, latency := c.cfg.accessLatency }, c1)

/-- `Cache::getEntry`: a copy of the resident entry, if any. -/
def Cache.getEntry {π : Type} (c : Cache π) (a : Nat) : Option CacheEntry :=
  let st := c.getSetAndTag a
  match c.findEntry st.1 st.2 with
  | some way => some ((c.entries.getD st.1 []).getD way {})
  | none => none

/-- `Cache::invalidateEntry`: reset the resident entry, if any. -/
def Cache.invalidateEntry {π : Type} (c : Cache π) (a : Nat) : Cache π :=
  let st := c.getSetAndTag a
  match c.findEntry st.1 st.2 with
  | some way =>
    { c with entries := c.entries.set st.1 ((c.entries.getD st.1 []).set way {}) }
  | none => c

/-- `Cache::forceEntry`: overwrite the resident way when the tag is present,
otherwise displace a policy-chosen victim (reporting the displaced entry
always, but its address and the write-back flag only when it was valid and
dirty).  The installed entry keeps the caller's dirty flag, forced to true
for a write under write-back; the policy is notified; counters unchanged. -/
def Cache.forceEntry {π : Type} (c : Cache π) (a : Nat) (ent : CacheEntry)
    (t : AccessType) : CacheResult × Cache π :=
  let st := c.getSetAndTag a
  let set := st.1
  let tag := st.2
  let row := c.entries.getD set []
  let wr : Nat × CacheResult × π :=
    match c.findEntry set tag with
    | some way =>
      (way, { hit := false, latency := c.cfg.accessLatency }, c.polSt)
    | none =>
      let vp := c.pol.getVictim c.polSt set row.length
      let victim := row.getD vp.1 {}
      let evEnt : Option CacheEntry := if victim.valid then some victim else none
      let dirtyV := victim.valid && victim.dirty
      (vp.1,
       { hit := false, latency := c.cfg.accessLatency, writeBack := dirtyV,
         evictedAddress :=
           if dirtyV then some (c.cfg.reconstructAddress set victim.tag) else none,
         evictedEntry := evEnt },
       vp.2)
  let way := wr.1
  let base : CacheEntry := { ent with tag := tag, valid := true }
  let newE : CacheEntry :=
    if t == .Write && c.cfg.writeBack then { base with dirty := true } else base
  (wr.2.1,
   { c with entries := c.entries.set set (row.set way newE),
            polSt := c.pol.onAccess wr.2.2 set way })

/-- Does the cache currently hold the block of `a` (`Cache::contains`)? -/
def Cache.containsAddr {π : Type} (c : Cache π) (a : Nat) : Bool :=
  let st := c.getSetAndTag a
  (c.findEntry st.1 st.2).isSome

/-! ### The hierarchy (`CacheHierarchy::access` in `cache.cpp`) -/

/-- A hierarchy is the ordered list of levels, L1 first. -/
structure Hier (π : Type) where
  caches : List (Cache π)

/-- The entry the hierarchy fabricates when a displaced entry's contents are
unavailable ("create a basic valid entry with the correct tag"). -/
def fallbackEntry {π : Type} (c : Cache π) (ev : Nat) : CacheEntry :=
  { valid := true, dirty := false, tag := (c.getSetAndTag ev).2 }

/-- The Step-C loop of `CacheHierarchy::access`: search the levels below L1
until a hit; on an exclusive hit, move the block to L1 (`getEntry`,
`invalidateEntry`, `forceEntry`) and capture any L1 displacement in the
eviction tracker.  Returns (L1, processed levels, latency, tracker, hit). -/
def loopC {π : Type} (a : Nat) (t : AccessType) :
    Cache π → List (Cache π) → List (Cache π) → Nat → Option (Nat × CacheEntry) →
    Cache π × List (Cache π) × Nat × Option (Nat × CacheEntry) × Bool
  | c0, done, [], lat, tr => (c0, done, lat, tr, false)
  | c0, done, c :: todo, lat, tr =>
    let rc := c.access a t
    let r := rc.1
    let c1 := rc.2
    let lat1 := lat + r.latency
    if r.hit then
      if c1.cfg.inclusionPolicy = .Exclusive then
        match c1.getEntry a with
        | some ent =>
          let c2 := c1.invalidateEntry a
          let fc := c0.forceEntry a ent t
          let tr1 :=
            match fc.1.evictedAddress with
            | some ev =>
              some (ev, match fc.1.evictedEntry with
                        | some e => e
                        | none => fallbackEntry fc.2 ev)
            | none => tr
          (fc.2, done ++ c2 :: todo, lat1, tr1, true)
        | none => (c0, done ++ c1 :: todo, lat1, tr, true)
      else (c0, done ++ c1 :: todo, lat1, tr, true)
    else loopC a t c0 (done ++ [c1]) todo lat1 tr

/-- The Step-D loop: on a global miss, re-access every Inclusive lower level
(which allocates) and back-invalidate its eviction from all earlier levels
(`CacheHierarchy::backinvalidate` resets levels `0 … i-1`). -/
def loopD {π : Type} (a : Nat) (t : AccessType) :
    Cache π → List (Cache π) → List (Cache π) → Nat →
    Cache π × List (Cache π) × Nat
  | c0, done, [], lat => (c0, done, lat)
  | c0, done, c :: todo, lat =>
    if c.cfg.inclusionPolicy = .Inclusive then
      let rc := c.access a t
      let lat1 := lat + rc.1.latency
      match rc.1.evictedAddress with
      | some ev =>
        loopD a t (c0.invalidateEntry ev)
          ((done.map fun d => d.invalidateEntry ev) ++ [rc.2]) todo lat1
      | none => loopD a t c0 (done ++ [rc.2]) todo lat1
    else loopD a t c0 (done ++ [c]) todo lat

/-- `CacheHierarchy::access`: L1 access with eviction capture (exclusive L2
only), early return on an L1 hit, lower-level search with exclusive
promotion, allocate-or-cleanup phase on a global miss, and final victim
caching of the tracked L1 eviction into L2.  Returns
`((total latency, hit in some cache), new hierarchy)`. -/
def hierAccess {π : Type} (h : Hier π) (a : Nat) (t : AccessType) :
    (Nat × Bool) × Hier π :=
  match h.caches with
  | [] => ((0, false), h)
  | c0 :: rest =>
    let hasExcl : Bool :=
      match rest with
      | c1 :: _ => c1.cfg.inclusionPolicy == .Exclusive
      | [] => false
    let rc := c0.access a t
    let r1 := rc.1
    let c0a := rc.2
    let tr0 : Option (Nat × CacheEntry) :=
      if hasExcl then
        match r1.evictedAddress with
        | some ev =>
          some (ev, match r1.evictedEntry with
                    | some e => e
                    | none => fallbackEntry c0a ev)
        | none => none
      else none
    if r1.hit then ((r1.latency, true), ⟨c0a :: rest⟩)
    else
      let sc := loopC a t c0a [] rest r1.latency tr0
      let c0b := sc.1
      let lvls := sc.2.1
      let latC := sc.2.2.1
      let trC := sc.2.2.2.1
      let hitC := sc.2.2.2.2
      let sd : Cache π × List (Cache π) × Nat :=
        if hitC then (c0b, lvls, latC)
        else if t == .Read || (t == .Write && c0.cfg.writeAllocate) then
          if hasExcl then
            match lvls with
            | c1 :: r2 => (c0b, c1.invalidateEntry a :: r2, latC)
            | [] => (c0b, lvls, latC)
          else loopD a t c0b [] lvls latC
        else (c0b, lvls, latC)
      let lvls3 :=
        if hasExcl then
          match trC with
          | some (ev, ent) =>
            if ev == a then sd.2.1
            else
              match sd.2.1 with
              | c1 :: r2 => (c1.forceEntry ev ent .Write).2 :: r2
              | [] => sd.2.1
          | none => sd.2.1
        else sd.2.1
      ((sd.2.2, hitC), ⟨sd.1 :: lvls3⟩)

/-- Fold a trace of `(address, kind)` pairs through the hierarchy. -/
def runTrace {π : Type} (h : Hier π) (tr : List (Nat × AccessType)) : Hier π :=
  tr.foldl (fun h p => (hierAccess h p.1 p.2).2) h

/-- Fold a trace through a single cache, collecting per-access hit flags. -/
def cacheRun {π : Type} (c : Cache π) (tr : List (Nat × AccessType)) :
    Cache π × List Bool :=
  tr.foldl (fun acc p =>
    let rc := acc.1.access p.1 p.2
    (rc.2, acc.2 ++ [rc.1.hit])) (c, [])

/-! ### Metrics (`PerformanceAnalyzer::collectMetrics`) -/

/-- The AMAT computation of `collectMetrics` over `ℚ` (the C++ uses
`double`): start from L1's latency, add each deeper level's latency weighted
by the running miss-path probability, then the memory latency weighted by
the final miss-path probability.  `rest` holds `(hitRate, accessLatency)`
for levels 2, 3, …, in order. -/
def collectAMAT (l1Lat l1HitRate : ℚ) (rest : List (ℚ × ℚ)) (memLat : ℚ) : ℚ :=
  let acc := rest.foldl
    (fun (acc : ℚ × ℚ) (p : ℚ × ℚ) => (acc.1 + acc.2 * p.2, acc.2 * (1 - p.1)))
    (l1Lat, 1 - l1HitRate)
  acc.1 + acc.2 * memLat

/-! ### FIFO variant runs (for the refinement claim)

A usage-disciplined call sequence on one set, as the cache issues it: an
`alloc` step queries the victim, installs it and reports it via `onAccess`;
a `touch w` step is a hit on an already-installed way `w`, reported via
`onAccess` only. -/

/-- One policy event of the cache's usage discipline. -/
inductive PEvent where
  | alloc
  | touch (w : Nat)
deriving DecidableEq, Repr

/-- Run the queue-based FIFO variant over a disciplined event sequence;
returns the final queue and the victims handed out, in order. -/
def qRun (n : Nat) : List PEvent → List Nat → List Nat × List Nat
  | [], q => (q, [])
  | .alloc :: es, q =>
    let v := fifoQueueGetVictim q n
    let r := qRun n es (fifoQueueOnAccess q v)
    (r.1, v :: r.2)
  | .touch w :: es, q => qRun n es (fifoQueueOnAccess q w)

/-- Run the circular-counter FIFO variant over a disciplined event sequence;
returns the final state and the victims handed out, in order. -/
def cRun (n : Nat) : List PEvent → Nat × List Nat → (Nat × List Nat) × List Nat
  | [], st => (st, [])
  | .alloc :: es, st =>
    let vp := fifoCtrGetVictim st n
    let r := cRun n es (fifoCtrOnAccess vp.2 vp.1)
    (r.1, vp.1 :: r.2)
  | .touch w :: es, st => cRun n es (fifoCtrOnAccess st w)

/-- Checks that every `touch` hits a way installed by an earlier `alloc`
(the cache's usage discipline); `k` counts the allocs seen so far. -/
def disciplined (n : Nat) : List PEvent → Nat → Bool
  | [], _ => true
  | .alloc :: es, k => disciplined n es (k + 1)
  | .touch w :: es, k => w < k && w < n && disciplined n es k

/-- Number of `alloc` events. -/
def allocCount : List PEvent → Nat
  | [] => 0
  | .alloc :: es => allocCount es + 1
  | .touch _ :: es => allocCount es

/-- Victims prescribed by the claim's FIFO rule along a disciplined event
sequence, with `k` allocations already performed: the lowest-numbered empty
way (`k`) while the set is filling, the oldest-installed way (way 0 at the
first post-fill eviction) once full. -/
def fifoSpecVictims (n : Nat) : List PEvent → Nat → List Nat
  | [], _ => []
  | .alloc :: es, k => (if k < n then k else 0) :: fifoSpecVictims n es (k + 1)
  | .touch _ :: es, k => fifoSpecVictims n es k

/-! ### The two-level exclusive access, decomposed -/

/-- The eviction tracker update of `CacheHierarchy::access` / its Step-C
loop: a reported eviction replaces the tracker, pairing the address with
the reported entry or, failing that, a fabricated one. -/
def trackerOf {π : Type} (r : CacheResult) (c : Cache π)
    (tr : Option (Nat × CacheEntry)) : Option (Nat × CacheEntry) :=
  match r.evictedAddress with
  | some ev =>
    some (ev, match r.evictedEntry with
              | some e => e
              | none => fallbackEntry c ev)
  | none => tr

/-- Step E of `CacheHierarchy::access`: force-install the tracked L1
eviction into the first of the lower levels, unless it is the block being
fetched. -/
def applyTracker {π : Type} (a : Nat) (tr : Option (Nat × CacheEntry))
    (ls : List (Cache π)) : List (Cache π) :=
  match tr with
  | some (ev, ent) =>
    if ev == a then ls
    else
      match ls with
      | c1 :: r2 => (c1.forceEntry ev ent .Write).2 :: r2
      | [] => ls
  | none => ls

/-- The state change of `CacheHierarchy::access` on a two-level hierarchy
with an Exclusive L2, written as straight-line branches: L1 access (its
eviction entering the tracker), early return on an L1 hit, exclusive
promotion on an L2 hit (whose own L1 displacement replaces the tracker),
invalidate-in-L2 cleanup on a global allocating miss, and final victim
caching of the tracked eviction into L2. -/
def hier2Step {π : Type} (c0 c1 : Cache π) (a : Nat) (t : AccessType) :
    Cache π × List (Cache π) :=
  let rc := c0.access a t
  let r1 := rc.1
  let c0a := rc.2
  let tr0 := trackerOf r1 c0a none
  if r1.hit then (c0a, [c1])
  else
    let rc2 := c1.access a t
    let r2 := rc2.1
    let c1a := rc2.2
    if r2.hit then
      match c1a.getEntry a with
      | some ent =>
        let c2 := c1a.invalidateEntry a
        let fc := c0a.forceEntry a ent t
        (fc.2, applyTracker a (trackerOf fc.1 fc.2 tr0) [c2])
      | none => (c0a, applyTracker a tr0 [c1a])
    else
      if t == .Read || (t == .Write && c0.cfg.writeAllocate) then
        (c0a, applyTracker a tr0 [c1a.invalidateEntry a])
      else (c0a, applyTracker a tr0 [c1a])

/-! ### Concrete configurations and runs used by the claims -/

/-- Does the `i`-th level of the hierarchy hold the block of `a`? -/
def hierContains {π : Type} (h : Hier π) (i : Nat) (a : Nat) : Bool :=
  match h.caches.get? i with
  | some c => c.containsAddr a
  | none => false

/-- Modelled from the spec: the geometry-validity condition the spec says
construction must enforce (power-of-two `size` and `blockSize`, nonzero
`blockSize`, `associativity ≤ size / blockSize`).  The source contains no
such check and no `ConfigError` type; this predicate exists only to state
claim C8. -/
def validGeometry (cfg : CacheConfig) : Bool :=
  (cfg.size != 0 && (cfg.size &&& (cfg.size - 1)) == 0) &&
  (cfg.blockSize != 0 && (cfg.blockSize &&& (cfg.blockSize - 1)) == 0) &&
  cfg.associativity ≤ cfg.size / cfg.blockSize

/-- L1 of the C1 scenario: fully associative, 128 B, 64 B blocks (2 ways). -/
def cfgC1L1 : CacheConfig :=
  { organization := .FullyAssociative, size := 128, blockSize := 64,
    associativity := 2, accessLatency := 1, writeBack := true, writeAllocate := true }

/-- L2 of the C1 scenario: direct-mapped, 128 B, 64 B blocks, Inclusive. -/
def cfgC1L2 : CacheConfig :=
  { organization := .DirectMapped, size := 128, blockSize := 64,
    associativity := 1, accessLatency := 10, writeBack := true, writeAllocate := true,
    inclusionPolicy := .Inclusive }

/-- Two-level inclusive hierarchy of the C1 scenario, LRU everywhere. -/
def hierC1 : Hier LRUSt :=
  ⟨[cacheInit cfgC1L1 lruPolicy [], cacheInit cfgC1L2 lruPolicy []]⟩

/-- L1 of the C2 counterexample: direct-mapped, one 64 B block. -/
def cfgC2L1 : CacheConfig :=
  { organization := .DirectMapped, size := 64, blockSize := 64,
    associativity := 1, accessLatency := 1, writeBack := true, writeAllocate := true }

/-- L2 of the C2 counterexample: direct-mapped, one 128 B block, Exclusive
(the block sizes of the two levels differ). -/
def cfgC2L2 : CacheConfig :=
  { organization := .DirectMapped, size := 128, blockSize := 128,
    associativity := 1, accessLatency := 10, writeBack := true, writeAllocate := true,
    inclusionPolicy := .Exclusive }

/-- Two-level exclusive hierarchy of the C2 counterexample. -/
def hierC2 : Hier LRUSt :=
  ⟨[cacheInit cfgC2L1 lruPolicy [], cacheInit cfgC2L2 lruPolicy []]⟩

/-- L1 of the C3 counterexample: one 64 B block, no write-allocate. -/
def cfgC3L1 : CacheConfig :=
  { organization := .DirectMapped, size := 64, blockSize := 64,
    associativity := 1, accessLatency := 1, writeBack := true, writeAllocate := false }

/-- L2 of the C3 counterexample: one 64 B block, Exclusive. -/
def cfgC3L2 : CacheConfig :=
  { organization := .DirectMapped, size := 64, blockSize := 64,
    associativity := 1, accessLatency := 10, writeBack := true, writeAllocate := true,
    inclusionPolicy := .Exclusive }

/-- Two-level exclusive hierarchy of the C3 counterexample. -/
def hierC3 : Hier LRUSt :=
  ⟨[cacheInit cfgC3L1 lruPolicy [], cacheInit cfgC3L2 lruPolicy []]⟩

/-- State of the C3 hierarchy after `R 0x0, R 0x40`. -/
def hierC3Mid : Hier LRUSt := runTrace hierC3 [(0x0, .Read), (0x40, .Read)]

/-- State of the C3 hierarchy after `R 0x0, R 0x40, W 0x0`. -/
def hierC3Fin : Hier LRUSt := runTrace hierC3 [(0x0, .Read), (0x40, .Read), (0x0, .Write)]

/-- The spec's Scenario 1 configuration: direct-mapped, 256 B, 64 B blocks. -/
def cfgC4 : CacheConfig :=
  { organization := .DirectMapped, size := 256, blockSize := 64,
    associativity := 1, accessLatency := 1, writeBack := true, writeAllocate := true }

/-- The spec's Scenario 1 access sequence (all reads). -/
def traceC4 : List (Nat × AccessType) :=
  [(0x0, .Read), (0x0, .Read), (0x100, .Read), (0x0, .Read), (0x40, .Read), (0x100, .Read)]

/-- Scenario 1 run. -/
def runC4 : Cache LRUSt × List Bool :=
  cacheRun (cacheInit cfgC4 lruPolicy []) traceC4

/-- Single-block cache of the C5 counterexample. -/
def cfgC5 : CacheConfig :=
  { organization := .DirectMapped, size := 64, blockSize := 64,
    associativity := 1, accessLatency := 1, writeBack := true, writeAllocate := true }

/-- The C5 cache after `R 0x0` (its single way now holds a valid block). -/
def cacheC5 : Cache LRUSt :=
  ((cacheInit cfgC5 lruPolicy []).access 0x0 .Read).2

/-- A direct-mapped configuration with a non-power-of-two size (96 B):
invalid geometry per the spec. -/
def cfgC8Bad : CacheConfig :=
  { organization := .DirectMapped, size := 96, blockSize := 64,
    associativity := 1, accessLatency := 1, writeBack := true, writeAllocate := true }

/-- L2 used by the C2 witness: two 64 B blocks (the same block size as the
L1 above it), direct-mapped, Exclusive. -/
def cfgC2wL2 : CacheConfig :=
  { organization := .DirectMapped, size := 128, blockSize := 64,
    associativity := 1, accessLatency := 10, writeBack := true, writeAllocate := true,
    inclusionPolicy := .Exclusive }

/-- L1 of the C2 witness: fresh single-block cache, trivial policy. -/
def c2wL1 : Cache Unit := cacheInit cfgC2L1 zeroPolicy ()

/-- L2 of the C2 witness: fresh equal-block-size exclusive cache, trivial
policy. -/
def c2wL2 : Cache Unit := cacheInit cfgC2wL2 zeroPolicy ()

/-- L1 used by the C3 witness: a single 64 B block warmed with a read of
`0x0` (so a read of `0x40` displaces a valid victim), trivial policy. -/
def c3wL1 : Cache Unit := ((cacheInit cfgC5 zeroPolicy ()).access 0x0 .Read).2

/-- L2 used by the C3 witness: a single 64 B block, Exclusive, trivial
policy. -/
def c3wL2 : Cache Unit := cacheInit cfgC3L2 zeroPolicy ()

/-- L1 level used by the C10 witness: the C1 hierarchy's L1 after a warm-up
read of `0x0` (so the next read of `0x0` hits). -/
def c10L1 : Cache LRUSt :=
  (runTrace hierC1 [(0x0, .Read)]).caches.getD 0 (cacheInit cfgC1L1 lruPolicy [])

/-- Lower levels used by the C10 witness. -/
def c10Rest : List (Cache LRUSt) :=
  (runTrace hierC1 [(0x0, .Read)]).caches.drop 1

/-! ### Side conditions for the general hierarchy theorems -/

/-- A replacement policy is in range: the nominated victim way is always
below the number of ways (all three C++ policies satisfy this under the
cache's usage discipline; the theorems quantify over any such policy). -/
def PolicyOk {π : Type} (p : Policy π) : Prop :=
  ∀ st set n, 0 < n → (p.getVictim st set n).1 < n

/-- Structural wellformedness of a cache: the decoded set index always
lands in the entry matrix, every set has at least one way, the offset and
index fields do not cover the whole 64-bit address, and every valid entry
holds a tag produced by the decoder (hence below `2^(64-(B+S))`). -/
@[reducible] def CacheWF {π : Type} (c : Cache π) : Prop :=
  c.cfg.getBlockOffsetBits + c.cfg.getIndexBits < 64 ∧
  2 ^ c.cfg.getIndexBits ≤ c.entries.length ∧
  (∀ s, s < c.entries.length → 0 < (c.entries.getD s []).length) ∧
  (∀ s, s < c.entries.length → ∀ i, i < (c.entries.getD s []).length →
    ((c.entries.getD s []).getD i {}).valid = true →
    ((c.entries.getD s []).getD i {}).tag <
      2 ^ (64 - (c.cfg.getBlockOffsetBits + c.cfg.getIndexBits)))

/-- Per-set tag uniqueness: no two distinct ways of a set are valid with
the same tag. -/
@[reducible] def SetUniq {π : Type} (c : Cache π) : Prop :=
  ∀ s, s < c.entries.length → ∀ i, i < (c.entries.getD s []).length →
    ∀ j, j < (c.entries.getD s []).length → i ≠ j →
    ¬(((c.entries.getD s []).getD i {}).valid = true ∧
      ((c.entries.getD s []).getD j {}).valid = true ∧
      ((c.entries.getD s []).getD i {}).tag = ((c.entries.getD s []).getD j {}).tag)

/-! ### List-level toolkit -/

theorem getD_of_lt {α : Type} (l : List α) (i : Nat) (d : α) (h : i < l.length) :
    l.getD i d = l[i] := by
  simp [List.getD_eq_getElem?_getD, List.getElem?_eq_getElem h]

theorem getD_set_self {α : Type} (l : List α) (w : Nat) (x d : α)
    (h : w < l.length) : (l.set w x).getD w d = x := by
  simp [List.getD_eq_getElem?_getD, List.getElem?_set_self h]

theorem getD_set_ne {α : Type} (l : List α) (w i : Nat) (x d : α)
    (h : w ≠ i) : (l.set w x).getD i d = l.getD i d := by
  simp [List.getD_eq_getElem?_getD, List.getElem?_set_ne h]

/-! ### findWay toolkit -/

theorem findWay_some_facts {row : List CacheEntry} {t i : Nat}
    (h : findWay row t = some i) :
    i < row.length ∧ (row.getD i {}).valid = true ∧ (row.getD i {}).tag = t := by
  unfold findWay at h
  rw [List.findIdx?_eq_some_iff_getElem] at h
  obtain ⟨hlt, hp, _⟩ := h
  simp only [Bool.and_eq_true, beq_iff_eq] at hp
  exact ⟨hlt, by rw [getD_of_lt row i {} hlt]; exact hp.1,
         by rw [getD_of_lt row i {} hlt]; exact hp.2⟩

theorem findWay_none_iff {row : List CacheEntry} {t : Nat} :
    findWay row t = none ↔
    ∀ i, i < row.length →
      ¬((row.getD i {}).valid = true ∧ (row.getD i {}).tag = t) := by
  unfold findWay
  rw [List.findIdx?_eq_none_iff]
  constructor
  · intro h i hi hc
    have hm := h (row.getD i {}) (by rw [getD_of_lt row i {} hi]; exact row.getElem_mem hi)
    simp only [Bool.and_eq_true, beq_iff_eq] at hm
    rw [hc.1, hc.2] at hm
    simp at hm
  · intro h x hx
    obtain ⟨i, hi, hxe⟩ := List.mem_iff_getElem.mp hx
    have := h i hi
    rw [getD_of_lt row i {} hi, hxe] at this
    by_contra hb
    simp only [Bool.not_eq_false, Bool.and_eq_true, beq_iff_eq] at hb
    exact this ⟨hb.1, hb.2⟩

theorem findWay_isSome_of_match {row : List CacheEntry} {t i : Nat}
    (hi : i < row.length) (hv : (row.getD i {}).valid = true)
    (ht : (row.getD i {}).tag = t) : (findWay row t).isSome = true := by
  rcases hw : findWay row t with _ | w
  · exact absurd ⟨hv, ht⟩ (findWay_none_iff.mp hw i hi)
  · rfl

/-- `findWay` sees only the (valid, tag) fields: rows that agree pointwise
on both produce the same result. -/
theorem findWay_congr : ∀ (row row2 : List CacheEntry) (t : Nat),
    row.length = row2.length →
    (∀ i, i < row.length →
      (row.getD i {}).valid = (row2.getD i {}).valid ∧
      (row.getD i {}).tag = (row2.getD i {}).tag) →
    findWay row t = findWay row2 t := by
  intro row
  induction row with
  | nil =>
    intro row2 t hl _
    cases row2 with
    | nil => rfl
    | cons b l2 => simp at hl
  | cons e rest ih =>
    intro row2 t hl hpt
    cases row2 with
    | nil => simp at hl
    | cons e2 rest2 =>
      have h0 := hpt 0 (by simp)
      simp only [List.getD_cons_zero] at h0
      have htail : findWay rest t = findWay rest2 t := by
        apply ih rest2 t (by simpa using hl)
        intro i hi
        have := hpt (i + 1) (by simpa using Nat.succ_lt_succ hi)
        simpa only [List.getD_cons_succ] using this
      unfold findWay at htail ⊢
      simp only [List.findIdx?_cons, Nat.zero_add, List.findIdx?_succ]
      rw [h0.1, h0.2, htail]

/-! ### Case equations for the cache operations -/

theorem access_hit_eq {π : Type} (c : Cache π) (a : Nat) (t : AccessType)
    {set tag w : Nat} (hst : c.getSetAndTag a = (set, tag))
    (hf : c.findEntry set tag = some w) :
    c.access a t =
      ({ hit := true, latency := c.cfg.accessLatency },
       if t == .Write && c.cfg.writeBack then
         { c with hits := c.hits + 1,
                  polSt := c.pol.onAccess c.polSt set w,
                  entries := c.entries.set set
                    ((c.entries.getD set []).set w
                      { (c.entries.getD set []).getD w {} with dirty := true }) }
       else
         { c with hits := c.hits + 1,
                  polSt := c.pol.onAccess c.polSt set w }) := by
  unfold Cache.access
  rw [hst]
  simp only [hf]

theorem access_missAlloc_eq {π : Type} (c : Cache π) (a : Nat) (t : AccessType)
    {set tag : Nat} {row : List CacheEntry} {vp : Nat × π}
    (hst : c.getSetAndTag a = (set, tag))
    (hrow : row = c.entries.getD set [])
    (hvp : vp = c.pol.getVictim c.polSt set row.length)
    (hf : c.findEntry set tag = none)
    (hcond : (t == AccessType.Read || (t == AccessType.Write && c.cfg.writeAllocate)) = true) :
    c.access a t =
      ({ hit := false, latency := c.cfg.accessLatency + 0,
         writeBack := (row.getD vp.1 {}).valid &&
           (c.cfg.writeBack && (row.getD vp.1 {}).dirty),
         evictedAddress :=
           if (row.getD vp.1 {}).valid then
             some (c.cfg.reconstructAddress set (row.getD vp.1 {}).tag)
           else none,
         evictedEntry := none },
       { c with misses := c.misses + 1,
                entries := c.entries.set set
                  (row.set vp.1
                    { valid := true, dirty := t == .Write && c.cfg.writeBack, tag := tag }),
                polSt := c.pol.onAccess vp.2 set vp.1 }) := by
  subst hrow
  subst hvp
  unfold Cache.access
  rw [hst]
  simp only [hf, hcond, if_true, Cache.allocateEntry]

theorem access_missNoAlloc_eq {π : Type} (c : Cache π) (a : Nat) (t : AccessType)
    {set tag : Nat} (hst : c.getSetAndTag a = (set, tag))
    (hf : c.findEntry set tag = none)
    (hcond : (t == AccessType.Read || (t == AccessType.Write && c.cfg.writeAllocate)) = false) :
    c.access a t =
      ({ hit := false, latency := c.cfg.accessLatency },
       { c with misses := c.misses + 1 }) := by
  unfold Cache.access
  rw [hst]
  simp only [hf, hcond]
  rfl

theorem invalidate_found_eq {π : Type} (c : Cache π) (a : Nat)
    {set tag w : Nat} (hst : c.getSetAndTag a = (set, tag))
    (hf : c.findEntry set tag = some w) :
    c.invalidateEntry a =
      { c with entries := c.entries.set set ((c.entries.getD set []).set w {}) } := by
  unfold Cache.invalidateEntry
  rw [hst]
  simp only [hf]

theorem invalidate_notFound_eq {π : Type} (c : Cache π) (a : Nat)
    {set tag : Nat} (hst : c.getSetAndTag a = (set, tag))
    (hf : c.findEntry set tag = none) :
    c.invalidateEntry a = c := by
  unfold Cache.invalidateEntry
  rw [hst]
  simp only [hf]

theorem getEntry_found_eq {π : Type} (c : Cache π) (a : Nat)
    {set tag w : Nat} (hst : c.getSetAndTag a = (set, tag))
    (hf : c.findEntry set tag = some w) :
    c.getEntry a = some ((c.entries.getD set []).getD w {}) := by
  unfold Cache.getEntry
  rw [hst]
  simp only [hf]

theorem getEntry_notFound_eq {π : Type} (c : Cache π) (a : Nat)
    {set tag : Nat} (hst : c.getSetAndTag a = (set, tag))
    (hf : c.findEntry set tag = none) :
    c.getEntry a = none := by
  unfold Cache.getEntry
  rw [hst]
  simp only [hf]

theorem forceEntry_found_eq {π : Type} (c : Cache π) (a : Nat) (ent : CacheEntry)
    (t : AccessType) {set tag w : Nat} (hst : c.getSetAndTag a = (set, tag))
    (hf : c.findEntry set tag = some w) :
    c.forceEntry a ent t =
      ({ hit := false, latency := c.cfg.accessLatency },
       { c with entries := c.entries.set set
                  ((c.entries.getD set []).set w
                    (if t == .Write && c.cfg.writeBack then
                      { ent with tag := tag, valid := true, dirty := true }
                    else { ent with tag := tag, valid := true })),
                polSt := c.pol.onAccess c.polSt set w }) := by
  unfold Cache.forceEntry
  rw [hst]
  simp only [hf]

theorem forceEntry_notFound_eq {π : Type} (c : Cache π) (a : Nat) (ent : CacheEntry)
    (t : AccessType) {set tag : Nat} {row : List CacheEntry} {vp : Nat × π}
    (hst : c.getSetAndTag a = (set, tag))
    (hrow : row = c.entries.getD set [])
    (hvp : vp = c.pol.getVictim c.polSt set row.length)
    (hf : c.findEntry set tag = none) :
    c.forceEntry a ent t =
      ({ hit := false, latency := c.cfg.accessLatency,
         writeBack := (row.getD vp.1 {}).valid && (row.getD vp.1 {}).dirty,
         evictedAddress :=
           if (row.getD vp.1 {}).valid && (row.getD vp.1 {}).dirty then
             some (c.cfg.reconstructAddress set (row.getD vp.1 {}).tag)
           else none,
         evictedEntry := if (row.getD vp.1 {}).valid then some (row.getD vp.1 {}) else none },
       { c with entries := c.entries.set set
                  (row.set vp.1
                    (if t == .Write && c.cfg.writeBack then
                      { ent with tag := tag, valid := true, dirty := true }
                    else { ent with tag := tag, valid := true })),
                polSt := c.pol.onAccess vp.2 set vp.1 }) := by
  subst hrow
  subst hvp
  unfold Cache.forceEntry
  rw [hst]
  simp only [hf]

/-! ### Preservation facts for the cache operations -/

theorem getD_set_cases {α : Type} (l : List α) (w i : Nat) (x d : α) :
    (l.set w x).getD i d =
      if w = i ∧ w < l.length then x else l.getD i d := by
  by_cases hwi : w = i
  · subst hwi
    by_cases hlt : w < l.length
    · rw [getD_set_self l w x d hlt]
      simp [hlt]
    · rw [List.set_eq_of_length_le (by omega)]
      simp [hlt]
  · rw [getD_set_ne l w i x d hwi]
    simp [hwi]

theorem access_cfg {π : Type} (c : Cache π) (a : Nat) (t : AccessType) :
    (c.access a t).2.cfg = c.cfg := by
  rcases hst : c.getSetAndTag a with ⟨set, tag⟩
  rcases hf : c.findEntry set tag with _ | w
  · rcases hcond : (t == AccessType.Read || (t == AccessType.Write && c.cfg.writeAllocate)) with _ | _
    · rw [access_missNoAlloc_eq c a t hst hf hcond]
    · rw [access_missAlloc_eq c a t hst rfl rfl hf hcond]
  · rw [access_hit_eq c a t hst hf]
    split <;> rfl

theorem access_pol {π : Type} (c : Cache π) (a : Nat) (t : AccessType) :
    (c.access a t).2.pol = c.pol := by
  rcases hst : c.getSetAndTag a with ⟨set, tag⟩
  rcases hf : c.findEntry set tag with _ | w
  · rcases hcond : (t == AccessType.Read || (t == AccessType.Write && c.cfg.writeAllocate)) with _ | _
    · rw [access_missNoAlloc_eq c a t hst hf hcond]
    · rw [access_missAlloc_eq c a t hst rfl rfl hf hcond]
  · rw [access_hit_eq c a t hst hf]
    split <;> rfl

theorem access_entries_len {π : Type} (c : Cache π) (a : Nat) (t : AccessType) :
    (c.access a t).2.entries.length = c.entries.length := by
  rcases hst : c.getSetAndTag a with ⟨set, tag⟩
  rcases hf : c.findEntry set tag with _ | w
  · rcases hcond : (t == AccessType.Read || (t == AccessType.Write && c.cfg.writeAllocate)) with _ | _
    · rw [access_missNoAlloc_eq c a t hst hf hcond]
    · rw [access_missAlloc_eq c a t hst rfl rfl hf hcond]
      simp
  · rw [access_hit_eq c a t hst hf]
    split <;> simp

theorem access_row_len {π : Type} (c : Cache π) (a : Nat) (t : AccessType) (s : Nat) :
    (((c.access a t).2.entries.getD s []) : List CacheEntry).length =
      (c.entries.getD s []).length := by
  rcases hst : c.getSetAndTag a with ⟨set, tag⟩
  rcases hf : c.findEntry set tag with _ | w
  · rcases hcond : (t == AccessType.Read || (t == AccessType.Write && c.cfg.writeAllocate)) with _ | _
    · rw [access_missNoAlloc_eq c a t hst hf hcond]
    · rw [access_missAlloc_eq c a t hst rfl rfl hf hcond]
      simp only
      rw [getD_set_cases]
      split
      · rename_i hcase
        rw [← hcase.1, List.length_set]
      · rfl
  · rw [access_hit_eq c a t hst hf]
    split
    · simp only
      rw [getD_set_cases]
      split
      · rename_i hcase
        rw [← hcase.1, List.length_set]
      · rfl
    · rfl

theorem invalidate_cfg {π : Type} (c : Cache π) (a : Nat) :
    (c.invalidateEntry a).cfg = c.cfg := by
  rcases hst : c.getSetAndTag a with ⟨set, tag⟩
  rcases hf : c.findEntry set tag with _ | w
  · rw [invalidate_notFound_eq c a hst hf]
  · rw [invalidate_found_eq c a hst hf]

theorem invalidate_pol {π : Type} (c : Cache π) (a : Nat) :
    (c.invalidateEntry a).pol = c.pol := by
  rcases hst : c.getSetAndTag a with ⟨set, tag⟩
  rcases hf : c.findEntry set tag with _ | w
  · rw [invalidate_notFound_eq c a hst hf]
  · rw [invalidate_found_eq c a hst hf]

theorem invalidate_polSt {π : Type} (c : Cache π) (a : Nat) :
    (c.invalidateEntry a).polSt = c.polSt := by
  rcases hst : c.getSetAndTag a with ⟨set, tag⟩
  rcases hf : c.findEntry set tag with _ | w
  · rw [invalidate_notFound_eq c a hst hf]
  · rw [invalidate_found_eq c a hst hf]

theorem invalidate_entries_len {π : Type} (c : Cache π) (a : Nat) :
    (c.invalidateEntry a).entries.length = c.entries.length := by
  rcases hst : c.getSetAndTag a with ⟨set, tag⟩
  rcases hf : c.findEntry set tag with _ | w
  · rw [invalidate_notFound_eq c a hst hf]
  · rw [invalidate_found_eq c a hst hf]
    simp

theorem invalidate_row_len {π : Type} (c : Cache π) (a : Nat) (s : Nat) :
    (((c.invalidateEntry a).entries.getD s []) : List CacheEntry).length =
      (c.entries.getD s []).length := by
  rcases hst : c.getSetAndTag a with ⟨set, tag⟩
  rcases hf : c.findEntry set tag with _ | w
  · rw [invalidate_notFound_eq c a hst hf]
  · rw [invalidate_found_eq c a hst hf]
    simp only
    rw [getD_set_cases]
    split
    · rename_i hcase
      rw [← hcase.1, List.length_set]
    · rfl

theorem forceEntry_cfg {π : Type} (c : Cache π) (a : Nat) (ent : CacheEntry)
    (t : AccessType) : (c.forceEntry a ent t).2.cfg = c.cfg := by
  rcases hst : c.getSetAndTag a with ⟨set, tag⟩
  rcases hf : c.findEntry set tag with _ | w
  · rw [forceEntry_notFound_eq c a ent t hst rfl rfl hf]
  · rw [forceEntry_found_eq c a ent t hst hf]

theorem forceEntry_pol {π : Type} (c : Cache π) (a : Nat) (ent : CacheEntry)
    (t : AccessType) : (c.forceEntry a ent t).2.pol = c.pol := by
  rcases hst : c.getSetAndTag a with ⟨set, tag⟩
  rcases hf : c.findEntry set tag with _ | w
  · rw [forceEntry_notFound_eq c a ent t hst rfl rfl hf]
  · rw [forceEntry_found_eq c a ent t hst hf]

theorem forceEntry_entries_len {π : Type} (c : Cache π) (a : Nat) (ent : CacheEntry)
    (t : AccessType) : (c.forceEntry a ent t).2.entries.length = c.entries.length := by
  rcases hst : c.getSetAndTag a with ⟨set, tag⟩
  rcases hf : c.findEntry set tag with _ | w
  · rw [forceEntry_notFound_eq c a ent t hst rfl rfl hf]
    simp
  · rw [forceEntry_found_eq c a ent t hst hf]
    simp

theorem forceEntry_row_len {π : Type} (c : Cache π) (a : Nat) (ent : CacheEntry)
    (t : AccessType) (s : Nat) :
    (((c.forceEntry a ent t).2.entries.getD s []) : List CacheEntry).length =
      (c.entries.getD s []).length := by
  rcases hst : c.getSetAndTag a with ⟨set, tag⟩
  rcases hf : c.findEntry set tag with _ | w
  · rw [forceEntry_notFound_eq c a ent t hst rfl rfl hf]
    simp only
    rw [getD_set_cases]
    split
    · rename_i hcase
      rw [← hcase.1, List.length_set]
    · rfl
  · rw [forceEntry_found_eq c a ent t hst hf]
    simp only
    rw [getD_set_cases]
    split
    · rename_i hcase
      rw [← hcase.1, List.length_set]
    · rfl

/-- `getSetAndTag` depends only on the configuration. -/
theorem getSetAndTag_congr {π : Type} (c c2 : Cache π) (h : c.cfg = c2.cfg)
    (x : Nat) : c.getSetAndTag x = c2.getSetAndTag x := by
  unfold Cache.getSetAndTag
  rw [h]

/-! ### Decode arithmetic -/

theorem or_mod_two_of_even {x y : Nat} (hx : x % 2 = 0) :
    (x ||| y) % 2 = y % 2 := by
  rcases Nat.mod_two_eq_zero_or_one y with hy | hy
  · have : ¬((x ||| y) % 2 = 1) := by
      rw [Nat.or_mod_two_eq_one]
      omega
    omega
  · have : (x ||| y) % 2 = 1 := by
      rw [Nat.or_mod_two_eq_one]
      omega
    omega

/-- Bitwise or of a value with only high bits and a value with only low
bits is their sum. -/
theorem mul_pow_lor_eq_add (k : Nat) :
    ∀ q y : Nat, y < 2 ^ k → (q * 2 ^ k) ||| y = q * 2 ^ k + y := by
  induction k with
  | zero =>
    intro q y hy
    interval_cases y
    simp
  | succ k ih =>
    intro q y hy
    have hqp : q * 2 ^ (k + 1) = 2 * (q * 2 ^ k) := by ring
    rw [hqp]
    have hx2 : (2 * (q * 2 ^ k)) % 2 = 0 := by omega
    have hmod : ((2 * (q * 2 ^ k)) ||| y) % 2 = y % 2 := or_mod_two_of_even hx2
    have hylt : y / 2 < 2 ^ k := by
      have hpow : 2 ^ (k + 1) = 2 * 2 ^ k := by ring
      omega
    have hdiv : ((2 * (q * 2 ^ k)) ||| y) / 2 = q * 2 ^ k + y / 2 := by
      rw [Nat.or_div_two]
      have h1 : 2 * (q * 2 ^ k) / 2 = q * 2 ^ k := by omega
      rw [h1]
      exact ih q (y / 2) hylt
    have hsplit := Nat.div_add_mod ((2 * (q * 2 ^ k)) ||| y) 2
    have hy2 := Nat.div_add_mod y 2
    omega

/-- With `b + s < 64`, the guarded decoders compute the plain field
extraction. -/
theorem getIndex_eq (a b s : Nat) (h : b + s < 64) :
    getIndex a b s = (a >>> b) % 2 ^ s := by
  unfold getIndex
  rcases Nat.eq_zero_or_pos s with hs | hs
  · subst hs
    simp [Nat.mod_one]
  · rw [if_neg (by omega), if_neg (by omega)]
    simp only
    rw [if_neg (by omega)]

theorem getTag_eq (a b s : Nat) (h : b + s < 64) :
    getTag a b s = (a >>> b) >>> s := by
  unfold getTag
  rw [if_neg (by omega), ← Nat.shiftRight_add]

/-- The decoded `(set, tag)` pair is exactly the base-`2^s` digits of the
block number `a >>> b`: two addresses decode equally iff they lie in the
same block. -/
theorem decode_eq_iff (a c b s : Nat) (h : b + s < 64) :
    (getIndex a b s = getIndex c b s ∧ getTag a b s = getTag c b s) ↔
      a >>> b = c >>> b := by
  rw [getIndex_eq a b s h, getIndex_eq c b s h, getTag_eq a b s h, getTag_eq c b s h]
  constructor
  · intro ⟨h1, h2⟩
    have h2d : (a >>> b) / 2 ^ s = (c >>> b) / 2 ^ s := by
      have := h2
      rwa [Nat.shiftRight_eq_div_pow (a >>> b), Nat.shiftRight_eq_div_pow (c >>> b)] at this
    conv_lhs => rw [← Nat.div_add_mod (a >>> b) (2 ^ s)]
    rw [h2d, h1, Nat.div_add_mod]
  · intro h1
    rw [h1]
    exact ⟨rfl, rfl⟩

theorem getIndex_lt (a b s : Nat) (ha : a < 2 ^ 64) :
    getIndex a b s < 2 ^ s := by
  unfold getIndex
  rcases Nat.eq_zero_or_pos s with hs | hs
  · subst hs
    simp
  · rw [if_neg (by omega)]
    by_cases hb : 64 ≤ b
    · rw [if_pos hb]
      exact Nat.pos_pow_of_pos s (by omega)
    · rw [if_neg hb]
      simp only
      by_cases hs64 : 64 ≤ s
      · rw [if_pos hs64]
        calc a >>> b ≤ a := by
              rw [Nat.shiftRight_eq_div_pow]
              exact Nat.div_le_self a (2 ^ b)
          _ < 2 ^ 64 := ha
          _ ≤ 2 ^ s := Nat.pow_le_pow_right (by omega) hs64
      · rw [if_neg hs64]
        exact Nat.mod_lt _ (Nat.pos_pow_of_pos s (by omega))

theorem getTag_lt (a b s : Nat) (ha : a < 2 ^ 64) (h : b + s < 64) :
    getTag a b s < 2 ^ (64 - (b + s)) := by
  rw [getTag_eq a b s h, ← Nat.shiftRight_add, Nat.shiftRight_eq_div_pow]
  rw [Nat.div_lt_iff_lt_mul (Nat.pos_pow_of_pos _ (by omega))]
  calc a < 2 ^ 64 := ha
    _ = 2 ^ (64 - (b + s)) * 2 ^ (b + s) := by
      rw [← Nat.pow_add]
      congr 1
      omega

/-- Reconstruction produces a 64-bit value. -/
theorem reconstruct_lt (cfg : CacheConfig) (set tag : Nat) :
    cfg.reconstructAddress set tag < 2 ^ 64 := by
  unfold CacheConfig.reconstructAddress
  exact Nat.or_lt_two_pow
    (Nat.mod_lt _ (Nat.pos_pow_of_pos _ (by omega)))
    (Nat.mod_lt _ (Nat.pos_pow_of_pos _ (by omega)))

/-- Round trip: decoding the reconstructed block address gives back the
set and tag (for in-range set and tag, with `b + s < 64`). -/
theorem decode_reconstruct (cfg : CacheConfig) (set tag : Nat)
    (hset : set < 2 ^ cfg.getIndexBits)
    (htag : tag < 2 ^ (64 - (cfg.getBlockOffsetBits + cfg.getIndexBits)))
    (h : cfg.getBlockOffsetBits + cfg.getIndexBits < 64) :
    getIndex (cfg.reconstructAddress set tag) cfg.getBlockOffsetBits
        cfg.getIndexBits = set ∧
    getTag (cfg.reconstructAddress set tag) cfg.getBlockOffsetBits
        cfg.getIndexBits = tag := by
  set b := cfg.getBlockOffsetBits with hbdef
  set s := cfg.getIndexBits with hsdef
  have hpowbs : (2 : Nat) ^ (b + s) = 2 ^ s * 2 ^ b := by
    rw [← Nat.pow_add]
    congr 1
    omega
  have htag64 : tag * 2 ^ (b + s) < 2 ^ 64 := by
    have h1 : tag < 2 ^ (64 - (b + s)) := htag
    calc tag * 2 ^ (b + s) < 2 ^ (64 - (b + s)) * 2 ^ (b + s) :=
          (Nat.mul_lt_mul_right (Nat.pos_pow_of_pos _ (by omega))).mpr h1
      _ = 2 ^ 64 := by rw [← Nat.pow_add]; congr 1; omega
  have hset64 : set * 2 ^ b < 2 ^ (b + s) := by
    calc set * 2 ^ b < 2 ^ s * 2 ^ b :=
          (Nat.mul_lt_mul_right (Nat.pos_pow_of_pos _ (by omega))).mpr hset
      _ = 2 ^ (b + s) := hpowbs.symm
  have hre : cfg.reconstructAddress set tag = tag * 2 ^ (b + s) + set * 2 ^ b := by
    unfold CacheConfig.reconstructAddress
    rw [Nat.shiftLeft_eq, Nat.shiftLeft_eq, ← hbdef, ← hsdef]
    rw [Nat.mod_eq_of_lt htag64,
        Nat.mod_eq_of_lt (lt_trans hset64 (Nat.pow_lt_pow_right (by omega) (by omega)))]
    exact mul_pow_lor_eq_add (b + s) tag (set * 2 ^ b) hset64
  have hfact : tag * 2 ^ (b + s) + set * 2 ^ b = (tag * 2 ^ s + set) * 2 ^ b := by
    rw [hpowbs]
    ring
  have hshift : (tag * 2 ^ (b + s) + set * 2 ^ b) >>> b = tag * 2 ^ s + set := by
    rw [Nat.shiftRight_eq_div_pow, hfact,
        Nat.mul_div_cancel _ (Nat.pos_pow_of_pos b (by omega))]
  constructor
  · rw [getIndex_eq _ b s h, hre, hshift, Nat.mul_comm tag (2 ^ s), Nat.mul_add_mod,
        Nat.mod_eq_of_lt hset]
  · rw [getTag_eq _ b s h, hre, hshift, Nat.shiftRight_eq_div_pow]
    rw [Nat.mul_comm tag (2 ^ s), Nat.mul_add_div (Nat.pos_pow_of_pos s (by omega)),
        Nat.div_eq_of_lt hset]
    omega

/-! ### Membership lemmas for the cache operations -/

theorem ite_install_valid {cond : Prop} [Decidable cond] (ent : CacheEntry) (tg : Nat) :
    ((if cond then { ent with tag := tg, valid := true, dirty := true }
      else { ent with tag := tg, valid := true }) : CacheEntry).valid = true := by
  split <;> rfl

theorem ite_install_tag {cond : Prop} [Decidable cond] (ent : CacheEntry) (tg : Nat) :
    ((if cond then { ent with tag := tg, valid := true, dirty := true }
      else { ent with tag := tg, valid := true }) : CacheEntry).tag = tg := by
  split <;> rfl

/-- Membership depends only on configuration and entries. -/
theorem containsAddr_congr {π : Type} (c c2 : Cache π) (hc : c.cfg = c2.cfg)
    (he : c.entries = c2.entries) (x : Nat) :
    c.containsAddr x = c2.containsAddr x := by
  unfold Cache.containsAddr Cache.findEntry Cache.getSetAndTag
  rw [hc, he]

/-- A hit access changes no memberships (it touches only counters, policy
state and a dirty bit). -/
theorem access_hit_contains {π : Type} (c : Cache π) (a : Nat) (t : AccessType)
    {set tag w : Nat} (hst : c.getSetAndTag a = (set, tag))
    (hf : c.findEntry set tag = some w) (x : Nat) :
    (c.access a t).2.containsAddr x = c.containsAddr x := by
  have hw := findWay_some_facts hf
  rw [access_hit_eq c a t hst hf]
  split
  · show (Cache.findEntry _ (c.getSetAndTag x).1 (c.getSetAndTag x).2).isSome =
      c.containsAddr x
    unfold Cache.findEntry
    simp only
    rw [getD_set_cases]
    split
    · rename_i hcase
      obtain ⟨hs1, hs2⟩ := hcase
      have hcongr : findWay
          ((c.entries.getD set []).set w
            { (c.entries.getD set []).getD w {} with dirty := true })
          (c.getSetAndTag x).2 =
          findWay (c.entries.getD set []) (c.getSetAndTag x).2 := by
        apply findWay_congr
        · simp
        · intro i hi
          rw [getD_set_cases]
          split
          · rename_i hcase2
            rw [← hcase2.1]
            exact ⟨rfl, rfl⟩
          · exact ⟨rfl, rfl⟩
      have h2 : c.containsAddr x =
          (findWay (c.entries.getD set []) (c.getSetAndTag x).2).isSome := by
        show (findWay (c.entries.getD (c.getSetAndTag x).1 []) (c.getSetAndTag x).2).isSome = _
        rw [← hs1]
      rw [h2]
      exact congrArg Option.isSome hcongr
    · rfl
  · rfl

/-- A miss that does not allocate changes no memberships. -/
theorem access_missNoAlloc_contains {π : Type} (c : Cache π) (a : Nat)
    (t : AccessType) {set tag : Nat} (hst : c.getSetAndTag a = (set, tag))
    (hf : c.findEntry set tag = none)
    (hcond : (t == AccessType.Read || (t == AccessType.Write && c.cfg.writeAllocate)) = false)
    (x : Nat) : (c.access a t).2.containsAddr x = c.containsAddr x := by
  rw [access_missNoAlloc_eq c a t hst hf hcond]
  rfl

/-- After an allocating miss the accessed block is resident. -/
theorem alloc_contains_self {π : Type} (c : Cache π) (a : Nat) (t : AccessType)
    {set tag : Nat} {row : List CacheEntry} {vp : Nat × π}
    (hst : c.getSetAndTag a = (set, tag)) (hrow : row = c.entries.getD set [])
    (hvp : vp = c.pol.getVictim c.polSt set row.length)
    (hf : c.findEntry set tag = none)
    (hcond : (t == AccessType.Read || (t == AccessType.Write && c.cfg.writeAllocate)) = true)
    (hset : set < c.entries.length) (hw : vp.1 < row.length) :
    (c.access a t).2.containsAddr a = true := by
  rw [access_missAlloc_eq c a t hst hrow hvp hf hcond]
  show (Cache.findEntry _ (c.getSetAndTag a).1 (c.getSetAndTag a).2).isSome = true
  unfold Cache.findEntry
  rw [hst]
  simp only
  rw [getD_set_cases, if_pos ⟨rfl, hset⟩]
  apply findWay_isSome_of_match (i := vp.1)
  · rw [List.length_set]
    rw [hrow] at hw ⊢
    exact hw
  · rw [getD_set_self _ _ _ _ (by rw [hrow] at hw ⊢; exact hw)]
  · rw [getD_set_self _ _ _ _ (by rw [hrow] at hw ⊢; exact hw)]

/-- An allocating miss adds only the accessed block. -/
theorem alloc_contains_mono {π : Type} (c : Cache π) (a : Nat) (t : AccessType)
    {set tag : Nat} {row : List CacheEntry} {vp : Nat × π}
    (hst : c.getSetAndTag a = (set, tag)) (hrow : row = c.entries.getD set [])
    (hvp : vp = c.pol.getVictim c.polSt set row.length)
    (hf : c.findEntry set tag = none)
    (hcond : (t == AccessType.Read || (t == AccessType.Write && c.cfg.writeAllocate)) = true)
    (x : Nat) (hx : (c.access a t).2.containsAddr x = true) :
    c.containsAddr x = true ∨ c.getSetAndTag x = (set, tag) := by
  rw [access_missAlloc_eq c a t hst hrow hvp hf hcond] at hx
  replace hx : (Cache.findEntry
      { c with misses := c.misses + 1,
               entries := c.entries.set set
                 (row.set vp.1
                   { valid := true, dirty := t == .Write && c.cfg.writeBack, tag := tag }),
               polSt := c.pol.onAccess vp.2 set vp.1 }
      (c.getSetAndTag x).1 (c.getSetAndTag x).2).isSome = true := hx
  unfold Cache.findEntry at hx
  simp only at hx
  rw [getD_set_cases] at hx
  by_cases hcase : set = (c.getSetAndTag x).1 ∧ set < c.entries.length
  · rw [if_pos hcase] at hx
    rcases h2 : findWay (row.set vp.1
        { valid := true, dirty := t == .Write && c.cfg.writeBack, tag := tag })
        (c.getSetAndTag x).2 with _ | i
    · rw [h2] at hx
      simp at hx
    · have hfacts := findWay_some_facts h2
      rw [getD_set_cases] at hfacts
      by_cases hiv : vp.1 = i ∧ vp.1 < row.length
      · rw [if_pos hiv] at hfacts
        right
        rcases hst2 : c.getSetAndTag x with ⟨sx, tx⟩
        rw [hst2] at hcase hfacts
        have h1 : sx = set := hcase.1.symm
        have h2 : tx = tag := hfacts.2.2.symm
        rw [h1, h2]
      · rw [if_neg hiv] at hfacts
        left
        show (Cache.findEntry c (c.getSetAndTag x).1 (c.getSetAndTag x).2).isSome = true
        unfold Cache.findEntry
        rw [← hcase.1, ← hrow]
        exact findWay_isSome_of_match
          (i := i) (by rw [← List.length_set row vp.1
            { valid := true, dirty := t == .Write && c.cfg.writeBack, tag := tag }]
                       exact hfacts.1)
          hfacts.2.1 hfacts.2.2
  · rw [if_neg hcase] at hx
    left
    exact hx

/-- An allocating miss whose victim was valid removes the victim's block:
no way of the set still holds the victim's tag. -/
theorem alloc_victim_gone {π : Type} (c : Cache π) (a : Nat) (t : AccessType)
    {set tag : Nat} {row : List CacheEntry} {vp : Nat × π}
    (hst : c.getSetAndTag a = (set, tag)) (hrow : row = c.entries.getD set [])
    (hvp : vp = c.pol.getVictim c.polSt set row.length)
    (hf : c.findEntry set tag = none)
    (hcond : (t == AccessType.Read || (t == AccessType.Write && c.cfg.writeAllocate)) = true)
    (hvv : (row.getD vp.1 {}).valid = true)
    (huniq : SetUniq c) (hset : set < c.entries.length) (hw : vp.1 < row.length)
    (x : Nat) (hx : c.getSetAndTag x = (set, (row.getD vp.1 {}).tag)) :
    (c.access a t).2.containsAddr x = false := by
  have hvt : (row.getD vp.1 {}).tag ≠ tag := by
    intro he
    have hnone : findWay (c.entries.getD set []) tag = none := hf
    exact findWay_none_iff.mp hnone vp.1 (by rw [hrow] at hw; exact hw)
      (by rw [← hrow]; exact ⟨hvv, he⟩)
  rw [access_missAlloc_eq c a t hst hrow hvp hf hcond]
  show (Cache.findEntry _ (c.getSetAndTag x).1 (c.getSetAndTag x).2).isSome = false
  unfold Cache.findEntry
  rw [hx]
  simp only
  rw [getD_set_cases, if_pos ⟨rfl, hset⟩]
  rcases h2 : findWay (row.set vp.1
      { valid := true, dirty := t == .Write && c.cfg.writeBack, tag := tag })
      (row.getD vp.1 {}).tag with _ | i
  · rfl
  · exfalso
    have hfacts := findWay_some_facts h2
    rw [getD_set_cases] at hfacts
    by_cases hiv : vp.1 = i ∧ vp.1 < row.length
    · rw [if_pos hiv] at hfacts
      exact hvt hfacts.2.2.symm
    · rw [if_neg hiv] at hfacts
      have hi : i < row.length := by
        have := hfacts.1
        rwa [List.length_set] at this
      have hine : vp.1 ≠ i := by
        intro he
        exact hiv ⟨he, hw⟩
      have := huniq set hset vp.1 (by rw [← hrow]; exact hw) i (by rw [← hrow]; exact hi)
        hine
      rw [← hrow] at this
      exact this ⟨hvv, hfacts.2.1, hfacts.2.2.symm⟩

/-- Invalidation removes the addressed block entirely (tag uniqueness). -/
theorem invalidate_contains_self {π : Type} (c : Cache π) (a : Nat)
    (huniq : SetUniq c) (hset : (c.getSetAndTag a).1 < c.entries.length) :
    (c.invalidateEntry a).containsAddr a = false := by
  rcases hst : c.getSetAndTag a with ⟨set, tag⟩
  rw [hst] at hset
  rcases hf : c.findEntry set tag with _ | w
  · rw [invalidate_notFound_eq c a hst hf]
    show (c.findEntry (c.getSetAndTag a).1 (c.getSetAndTag a).2).isSome = false
    rw [hst, hf]
    rfl
  · have hfacts := findWay_some_facts hf
    rw [invalidate_found_eq c a hst hf]
    show (Cache.findEntry _ (c.getSetAndTag a).1 (c.getSetAndTag a).2).isSome = false
    unfold Cache.findEntry
    rw [hst]
    simp only
    rw [getD_set_cases, if_pos ⟨rfl, hset⟩]
    rcases h2 : findWay ((c.entries.getD set []).set w {}) tag with _ | i
    · rfl
    · exfalso
      have h2facts := findWay_some_facts h2
      rw [getD_set_cases] at h2facts
      by_cases hiw : w = i ∧ w < (c.entries.getD set []).length
      · rw [if_pos hiw] at h2facts
        exact Bool.false_ne_true h2facts.2.1
      · rw [if_neg hiw] at h2facts
        have hi : i < (c.entries.getD set []).length := by
          have := h2facts.1
          rwa [List.length_set] at this
        have hwne : w ≠ i := fun he => hiw ⟨he, hfacts.1⟩
        exact huniq set hset w hfacts.1 i hi hwne
          ⟨hfacts.2.1, h2facts.2.1, by rw [hfacts.2.2, h2facts.2.2]⟩

/-- Invalidation never adds a block. -/
theorem invalidate_contains_mono {π : Type} (c : Cache π) (a : Nat) (x : Nat)
    (hx : (c.invalidateEntry a).containsAddr x = true) :
    c.containsAddr x = true := by
  rcases hst : c.getSetAndTag a with ⟨set, tag⟩
  rcases hf : c.findEntry set tag with _ | w
  · rwa [invalidate_notFound_eq c a hst hf] at hx
  · have hfacts := findWay_some_facts hf
    rw [invalidate_found_eq c a hst hf] at hx
    replace hx : (Cache.findEntry
        { c with entries := c.entries.set set ((c.entries.getD set []).set w {}) }
        (c.getSetAndTag x).1 (c.getSetAndTag x).2).isSome = true := hx
    unfold Cache.findEntry at hx
    simp only at hx
    rw [getD_set_cases] at hx
    by_cases hcase : set = (c.getSetAndTag x).1 ∧ set < c.entries.length
    · rw [if_pos hcase] at hx
      rcases h2 : findWay ((c.entries.getD set []).set w {}) (c.getSetAndTag x).2
        with _ | i
      · rw [h2] at hx
        simp at hx
      · have h2facts := findWay_some_facts h2
        rw [getD_set_cases] at h2facts
        by_cases hiw : w = i ∧ w < (c.entries.getD set []).length
        · rw [if_pos hiw] at h2facts
          exact absurd h2facts.2.1 Bool.false_ne_true
        · rw [if_neg hiw] at h2facts
          show (Cache.findEntry c (c.getSetAndTag x).1 (c.getSetAndTag x).2).isSome = true
          unfold Cache.findEntry
          rw [← hcase.1]
          exact findWay_isSome_of_match (i := i)
            (by have := h2facts.1; rwa [List.length_set] at this)
            h2facts.2.1 h2facts.2.2
    · rw [if_neg hcase] at hx
      exact hx

/-- Force-install makes the addressed block resident. -/
theorem forceEntry_installs {π : Type} (c : Cache π) (a : Nat) (ent : CacheEntry)
    (t : AccessType) (hpol : PolicyOk c.pol)
    (hset : (c.getSetAndTag a).1 < c.entries.length)
    (hrowpos : 0 < (c.entries.getD (c.getSetAndTag a).1 []).length) :
    (c.forceEntry a ent t).2.containsAddr a = true := by
  rcases hst : c.getSetAndTag a with ⟨set, tag⟩
  rw [hst] at hset hrowpos
  rcases hf : c.findEntry set tag with _ | w
  · have hw : (c.pol.getVictim c.polSt set (c.entries.getD set []).length).1 <
        (c.entries.getD set []).length := hpol c.polSt set _ hrowpos
    rw [forceEntry_notFound_eq c a ent t hst rfl rfl hf]
    show (Cache.findEntry _ (c.getSetAndTag a).1 (c.getSetAndTag a).2).isSome = true
    unfold Cache.findEntry
    rw [hst]
    simp only
    rw [getD_set_cases, if_pos ⟨rfl, hset⟩]
    exact findWay_isSome_of_match
      (i := (c.pol.getVictim c.polSt set (c.entries.getD set []).length).1)
      (by rw [List.length_set]; exact hw)
      (by rw [getD_set_self _ _ _ _ hw]; exact ite_install_valid _ _)
      (by rw [getD_set_self _ _ _ _ hw]; exact ite_install_tag _ _)
  · have hfacts := findWay_some_facts hf
    rw [forceEntry_found_eq c a ent t hst hf]
    show (Cache.findEntry _ (c.getSetAndTag a).1 (c.getSetAndTag a).2).isSome = true
    unfold Cache.findEntry
    rw [hst]
    simp only
    rw [getD_set_cases, if_pos ⟨rfl, hset⟩]
    exact findWay_isSome_of_match (i := w)
      (by rw [List.length_set]; exact hfacts.1)
      (by rw [getD_set_self _ _ _ _ hfacts.1]; exact ite_install_valid _ _)
      (by rw [getD_set_self _ _ _ _ hfacts.1]; exact ite_install_tag _ _)

/-- Force-install adds only the addressed block. -/
theorem forceEntry_contains_mono {π : Type} (c : Cache π) (a : Nat)
    (ent : CacheEntry) (t : AccessType) (x : Nat)
    (hx : (c.forceEntry a ent t).2.containsAddr x = true) :
    c.containsAddr x = true ∨ c.getSetAndTag x = c.getSetAndTag a := by
  rcases hst : c.getSetAndTag a with ⟨set, tag⟩
  have hgen : ∀ (w : Nat) (row2 : List CacheEntry) (pst : π),
      row2 = c.entries.getD set [] →
      (Cache.findEntry
        { c with entries := c.entries.set set
                   (row2.set w
                     (if t == .Write && c.cfg.writeBack then
                       { ent with tag := tag, valid := true, dirty := true }
                     else { ent with tag := tag, valid := true })),
                 polSt := pst }
        (c.getSetAndTag x).1 (c.getSetAndTag x).2).isSome = true →
      c.containsAddr x = true ∨ c.getSetAndTag x = (set, tag) := by
    intro w row2 pst hrow2 hmem
    unfold Cache.findEntry at hmem
    simp only at hmem
    rw [getD_set_cases] at hmem
    by_cases hcase : set = (c.getSetAndTag x).1 ∧ set < c.entries.length
    · rw [if_pos hcase] at hmem
      rcases h2 : findWay (row2.set w
          (if t == .Write && c.cfg.writeBack then
            { ent with tag := tag, valid := true, dirty := true }
          else { ent with tag := tag, valid := true })) (c.getSetAndTag x).2 with _ | i
      · rw [h2] at hmem
        simp at hmem
      · have h2facts := findWay_some_facts h2
        rw [getD_set_cases] at h2facts
        by_cases hiw : w = i ∧ w < row2.length
        · rw [if_pos hiw] at h2facts
          right
          rcases hst2 : c.getSetAndTag x with ⟨sx, tx⟩
          rw [hst2] at hcase h2facts
          have h1 : sx = set := hcase.1.symm
          have h2 : tx = tag := by
            have h3 := h2facts.2.2
            rw [ite_install_tag] at h3
            exact h3.symm
          rw [h1, h2]
        · rw [if_neg hiw] at h2facts
          left
          show (Cache.findEntry c (c.getSetAndTag x).1 (c.getSetAndTag x).2).isSome = true
          unfold Cache.findEntry
          rw [← hcase.1, ← hrow2]
          exact findWay_isSome_of_match (i := i)
            (by have := h2facts.1; rwa [List.length_set] at this)
            h2facts.2.1 h2facts.2.2
    · rw [if_neg hcase] at hmem
      left
      exact hmem
  rcases hf : c.findEntry set tag with _ | w
  · rw [forceEntry_notFound_eq c a ent t hst rfl rfl hf] at hx
    exact hgen _ _ _ rfl hx
  · rw [forceEntry_found_eq c a ent t hst hf] at hx
    exact hgen _ _ _ rfl hx

/-- Force-install into a set whose chosen victim was valid removes the
victim's block (tag uniqueness). -/
theorem forceEntry_victim_gone {π : Type} (c : Cache π) (a : Nat)
    (ent : CacheEntry) (t : AccessType) {set tag : Nat}
    {row : List CacheEntry} {vp : Nat × π}
    (hst : c.getSetAndTag a = (set, tag)) (hrow : row = c.entries.getD set [])
    (hvp : vp = c.pol.getVictim c.polSt set row.length)
    (hf : c.findEntry set tag = none)
    (hvv : (row.getD vp.1 {}).valid = true)
    (huniq : SetUniq c) (hset : set < c.entries.length) (hw : vp.1 < row.length)
    (x : Nat) (hx : c.getSetAndTag x = (set, (row.getD vp.1 {}).tag)) :
    (c.forceEntry a ent t).2.containsAddr x = false := by
  have hvt : (row.getD vp.1 {}).tag ≠ tag := by
    intro he
    have hnone : findWay (c.entries.getD set []) tag = none := hf
    exact findWay_none_iff.mp hnone vp.1 (by rw [hrow] at hw; exact hw)
      (by rw [← hrow]; exact ⟨hvv, he⟩)
  rw [forceEntry_notFound_eq c a ent t hst hrow hvp hf]
  show (Cache.findEntry _ (c.getSetAndTag x).1 (c.getSetAndTag x).2).isSome = false
  unfold Cache.findEntry
  rw [hx]
  simp only
  rw [getD_set_cases, if_pos ⟨rfl, hset⟩]
  rcases h2 : findWay (row.set vp.1
      (if t == .Write && c.cfg.writeBack then
        { ent with tag := tag, valid := true, dirty := true }
      else { ent with tag := tag, valid := true })) (row.getD vp.1 {}).tag with _ | i
  · rfl
  · exfalso
    have h2facts := findWay_some_facts h2
    rw [getD_set_cases] at h2facts
    by_cases hiv : vp.1 = i ∧ vp.1 < row.length
    · rw [if_pos hiv] at h2facts
      rw [ite_install_tag] at h2facts
      exact hvt h2facts.2.2.symm
    · rw [if_neg hiv] at h2facts
      have hi : i < row.length := by
        have := h2facts.1
        rwa [List.length_set] at this
      have hine : vp.1 ≠ i := fun he => hiv ⟨he, hw⟩
      have := huniq set hset vp.1 (by rw [← hrow]; exact hw) i (by rw [← hrow]; exact hi)
        hine
      rw [← hrow] at this
      exact this ⟨hvv, h2facts.2.1, h2facts.2.2.symm⟩

/-- A successful way lookup implies the set index is inside the matrix. -/
theorem set_lt_of_findWay_some {π : Type} (c : Cache π) {set tag w : Nat}
    (hf : c.findEntry set tag = some w) : set < c.entries.length := by
  have hw := (findWay_some_facts hf).1
  by_contra hnot
  have hnil : c.entries.getD set [] = [] :=
    List.getD_eq_default _ _ (by omega)
  rw [hnil] at hw
  simp at hw

/-- Overwriting one way preserves per-set tag uniqueness as long as the new
entry, when valid, duplicates no other valid way's tag. -/
theorem SetUniq_update {π : Type} (c : Cache π) (set w : Nat) (e : CacheEntry)
    (hsu : SetUniq c)
    (he : e.valid = true → ∀ i, i < (c.entries.getD set []).length → i ≠ w →
      ¬(((c.entries.getD set []).getD i {}).valid = true ∧
        ((c.entries.getD set []).getD i {}).tag = e.tag)) :
    SetUniq { c with entries := c.entries.set set ((c.entries.getD set []).set w e) } := by
  intro s hs i hi j hj hij
  simp only at hs hi hj ⊢
  rw [List.length_set] at hs
  rw [getD_set_cases] at hi hj ⊢
  by_cases h1 : set = s ∧ set < c.entries.length
  · rw [if_pos h1] at hi hj ⊢
    rw [List.length_set] at hi hj
    obtain ⟨rfl, hslt⟩ := h1
    rw [getD_set_cases, getD_set_cases]
    by_cases h2 : w = i ∧ w < (c.entries.getD set []).length
    · rw [if_pos h2]
      by_cases h3 : w = j ∧ w < (c.entries.getD set []).length
      · exact absurd (h2.1.symm.trans h3.1) hij
      · rw [if_neg h3]
        rintro ⟨hv1, hv2, hv3⟩
        exact he hv1 j hj (fun hjw => h3 ⟨hjw.symm, h2.2⟩) ⟨hv2, hv3.symm⟩
    · rw [if_neg h2]
      by_cases h3 : w = j ∧ w < (c.entries.getD set []).length
      · rw [if_pos h3]
        rintro ⟨hv1, hv2, hv3⟩
        exact he hv2 i hi (fun hiw => h2 ⟨hiw.symm, h3.2⟩) ⟨hv1, hv3⟩
      · rw [if_neg h3]
        exact hsu set hslt i hi j hj hij
  · rw [if_neg h1] at hi hj ⊢
    exact hsu s hs i hi j hj hij

/-- Overwriting one way preserves wellformedness as long as the new entry,
when valid, carries a decode-bounded tag. -/
theorem CacheWF_set {π : Type} (c : Cache π) (set w : Nat) (e : CacheEntry)
    (hwf : CacheWF c)
    (he : e.valid = true →
      e.tag < 2 ^ (64 - (c.cfg.getBlockOffsetBits + c.cfg.getIndexBits))) :
    CacheWF { c with entries := c.entries.set set ((c.entries.getD set []).set w e) } := by
  refine ⟨hwf.1, ?_, ?_, ?_⟩
  · simp only [List.length_set]
    exact hwf.2.1
  · intro s hs
    simp only [List.length_set] at hs
    simp only [getD_set_cases]
    by_cases h1 : set = s ∧ set < c.entries.length
    · rw [if_pos h1, List.length_set]
      exact h1.1 ▸ hwf.2.2.1 set h1.2
    · rw [if_neg h1]
      exact hwf.2.2.1 s hs
  · intro s hs i hi hv
    simp only [List.length_set] at hs
    simp only [getD_set_cases] at hi hv ⊢
    by_cases h1 : set = s ∧ set < c.entries.length
    · rw [if_pos h1] at hi hv ⊢
      rw [List.length_set] at hi
      rw [getD_set_cases] at hv ⊢
      by_cases h2 : w = i ∧ w < (c.entries.getD set []).length
      · rw [if_pos h2] at hv ⊢
        exact he hv
      · rw [if_neg h2] at hv ⊢
        exact h1.1 ▸ hwf.2.2.2 set h1.2 i (h1.1 ▸ hi) (h1.1 ▸ hv)
    · rw [if_neg h1] at hi hv ⊢
      exact hwf.2.2.2 s hs i hi hv

/-- `Cache::access` preserves per-set tag uniqueness. -/
theorem access_setUniq {π : Type} (c : Cache π) (a : Nat) (t : AccessType)
    (hsu : SetUniq c) : SetUniq (c.access a t).2 := by
  rcases hst : c.getSetAndTag a with ⟨set, tag⟩
  rcases hf : c.findEntry set tag with _ | w
  · by_cases hcond : (t == AccessType.Read ||
        (t == AccessType.Write && c.cfg.writeAllocate)) = true
    · rw [access_missAlloc_eq c a t hst rfl rfl hf hcond]
      exact SetUniq_update c set _
        { valid := true, dirty := t == .Write && c.cfg.writeBack, tag := tag } hsu
        (fun _ i hi _ hdup =>
          findWay_none_iff.mp hf i hi hdup)
    · rw [access_missNoAlloc_eq c a t hst hf (by rwa [Bool.not_eq_true] at hcond)]
      exact hsu
  · have hfacts := findWay_some_facts hf
    have hslt : set < c.entries.length := set_lt_of_findWay_some c hf
    rw [access_hit_eq c a t hst hf]
    split
    · exact SetUniq_update c set w
        { (c.entries.getD set []).getD w {} with dirty := true } hsu
        (fun hv i hi hiw hdup =>
          hsu set hslt i hi w hfacts.1 hiw ⟨hdup.1, hv, hdup.2⟩)
    · exact hsu

/-- `Cache::invalidateEntry` preserves per-set tag uniqueness. -/
theorem invalidate_setUniq {π : Type} (c : Cache π) (a : Nat)
    (hsu : SetUniq c) : SetUniq (c.invalidateEntry a) := by
  rcases hst : c.getSetAndTag a with ⟨set, tag⟩
  rcases hf : c.findEntry set tag with _ | w
  · rw [invalidate_notFound_eq c a hst hf]
    exact hsu
  · rw [invalidate_found_eq c a hst hf]
    exact SetUniq_update c set w {} hsu (fun hv => absurd hv (by simp))

/-- `Cache::forceEntry` preserves per-set tag uniqueness. -/
theorem forceEntry_setUniq {π : Type} (c : Cache π) (a : Nat) (ent : CacheEntry)
    (t : AccessType) (hsu : SetUniq c) : SetUniq (c.forceEntry a ent t).2 := by
  rcases hst : c.getSetAndTag a with ⟨set, tag⟩
  rcases hf : c.findEntry set tag with _ | w
  · rw [forceEntry_notFound_eq c a ent t hst rfl rfl hf]
    refine SetUniq_update c set _ _ hsu (fun _ i hi _ hdup => ?_)
    rw [ite_install_tag] at hdup
    exact findWay_none_iff.mp hf i hi hdup
  · have hfacts := findWay_some_facts hf
    have hslt : set < c.entries.length := set_lt_of_findWay_some c hf
    rw [forceEntry_found_eq c a ent t hst hf]
    refine SetUniq_update c set w _ hsu (fun _ i hi hiw hdup => ?_)
    rw [ite_install_tag] at hdup
    exact hsu set hslt i hi w hfacts.1 hiw
      ⟨hdup.1, hfacts.2.1, hdup.2.trans hfacts.2.2.symm⟩

/-- `Cache::access` preserves wellformedness for 64-bit addresses. -/
theorem access_wf {π : Type} (c : Cache π) (a : Nat) (t : AccessType)
    (hwf : CacheWF c) (ha : a < 2 ^ 64) : CacheWF (c.access a t).2 := by
  rcases hst : c.getSetAndTag a with ⟨set, tag⟩
  have htag : tag < 2 ^ (64 - (c.cfg.getBlockOffsetBits + c.cfg.getIndexBits)) := by
    have h1 : tag = getTag a c.cfg.getBlockOffsetBits c.cfg.getIndexBits := by
      have h2 : (c.getSetAndTag a).2 =
          getTag a c.cfg.getBlockOffsetBits c.cfg.getIndexBits := rfl
      rw [hst] at h2
      exact h2
    rw [h1]
    exact getTag_lt a _ _ ha hwf.1
  rcases hf : c.findEntry set tag with _ | w
  · by_cases hcond : (t == AccessType.Read ||
        (t == AccessType.Write && c.cfg.writeAllocate)) = true
    · rw [access_missAlloc_eq c a t hst rfl rfl hf hcond]
      exact CacheWF_set c set _
        { valid := true, dirty := t == .Write && c.cfg.writeBack, tag := tag } hwf
        (fun _ => htag)
    · rw [access_missNoAlloc_eq c a t hst hf (by rwa [Bool.not_eq_true] at hcond)]
      exact hwf
  · have hfacts := findWay_some_facts hf
    have hslt : set < c.entries.length := set_lt_of_findWay_some c hf
    rw [access_hit_eq c a t hst hf]
    split
    · exact CacheWF_set c set w
        { (c.entries.getD set []).getD w {} with dirty := true } hwf
        (fun hv => hwf.2.2.2 set hslt w hfacts.1 hv)
    · exact hwf

/-- `Cache::invalidateEntry` preserves wellformedness. -/
theorem invalidate_wf {π : Type} (c : Cache π) (a : Nat)
    (hwf : CacheWF c) : CacheWF (c.invalidateEntry a) := by
  rcases hst : c.getSetAndTag a with ⟨set, tag⟩
  rcases hf : c.findEntry set tag with _ | w
  · rw [invalidate_notFound_eq c a hst hf]
    exact hwf
  · rw [invalidate_found_eq c a hst hf]
    exact CacheWF_set c set w {} hwf (fun hv => absurd hv (by simp))

/-- `Cache::forceEntry` preserves wellformedness for 64-bit addresses. -/
theorem forceEntry_wf {π : Type} (c : Cache π) (a : Nat) (ent : CacheEntry)
    (t : AccessType) (hwf : CacheWF c) (ha : a < 2 ^ 64) :
    CacheWF (c.forceEntry a ent t).2 := by
  rcases hst : c.getSetAndTag a with ⟨set, tag⟩
  have htag : tag < 2 ^ (64 - (c.cfg.getBlockOffsetBits + c.cfg.getIndexBits)) := by
    have h1 : tag = getTag a c.cfg.getBlockOffsetBits c.cfg.getIndexBits := by
      have h2 : (c.getSetAndTag a).2 =
          getTag a c.cfg.getBlockOffsetBits c.cfg.getIndexBits := rfl
      rw [hst] at h2
      exact h2
    rw [h1]
    exact getTag_lt a _ _ ha hwf.1
  rcases hf : c.findEntry set tag with _ | w
  · rw [forceEntry_notFound_eq c a ent t hst rfl rfl hf]
    refine CacheWF_set c set _ _ hwf (fun _ => ?_)
    rw [ite_install_tag]
    exact htag
  · rw [forceEntry_found_eq c a ent t hst hf]
    refine CacheWF_set c set w _ hwf (fun _ => ?_)
    rw [ite_install_tag]
    exact htag

/-- A resident block can be fetched with `getEntry`. -/
theorem getEntry_some_of_contains {π : Type} (c : Cache π) (a : Nat)
    (h : c.containsAddr a = true) : ∃ e, c.getEntry a = some e := by
  rcases hst : c.getSetAndTag a with ⟨set, tag⟩
  rcases hf : c.findEntry set tag with _ | w
  · exfalso
    replace h : (c.findEntry (c.getSetAndTag a).1 (c.getSetAndTag a).2).isSome = true := h
    rw [hst, hf] at h
    simp at h
  · exact ⟨_, getEntry_found_eq c a hst hf⟩

/-- For a 64-bit address, a wellformed cache decodes a set index inside its
entry matrix. -/
theorem getSetAndTag_fst_lt {π : Type} (c : Cache π) (a : Nat) (hwf : CacheWF c)
    (ha : a < 2 ^ 64) : (c.getSetAndTag a).1 < c.entries.length := by
  show getIndex a c.cfg.getBlockOffsetBits c.cfg.getIndexBits < c.entries.length
  exact lt_of_lt_of_le (getIndex_lt a _ _ ha) hwf.2.1

/-- An access result carrying an evicted address was an allocating miss,
and the address is a reconstructed (64-bit) block address. -/
theorem access_evAddr_some {π : Type} (c : Cache π) (a : Nat) (t : AccessType)
    (ev : Nat) (h : (c.access a t).1.evictedAddress = some ev) :
    (c.access a t).1.hit = false ∧
    c.findEntry (c.getSetAndTag a).1 (c.getSetAndTag a).2 = none ∧
    (t == AccessType.Read || (t == AccessType.Write && c.cfg.writeAllocate)) = true ∧
    ev < 2 ^ 64 := by
  rcases hst : c.getSetAndTag a with ⟨set, tag⟩
  rcases hf : c.findEntry set tag with _ | w
  · by_cases hcond : (t == AccessType.Read ||
        (t == AccessType.Write && c.cfg.writeAllocate)) = true
    · refine ⟨?_, ?_, hcond, ?_⟩
      · rw [access_missAlloc_eq c a t hst rfl rfl hf hcond]
      · rfl
      · rw [access_missAlloc_eq c a t hst rfl rfl hf hcond] at h
        have h2 : (if ((c.entries.getD set []).getD
              (c.pol.getVictim c.polSt set (c.entries.getD set []).length).1 {}).valid = true then
                some (c.cfg.reconstructAddress set
                  ((c.entries.getD set []).getD
                    (c.pol.getVictim c.polSt set (c.entries.getD set []).length).1 {}).tag)
              else none) = some ev := h
        split at h2
        · rw [Option.some.injEq] at h2
          rw [← h2]
          exact reconstruct_lt c.cfg set _
        · exact absurd h2 (by simp)
    · rw [access_missNoAlloc_eq c a t hst hf (by rwa [Bool.not_eq_true] at hcond)] at h
      exact absurd h (by simp)
  · rw [access_hit_eq c a t hst hf] at h
    exact absurd h (by simp)

/-- `Cache::access` never reports an evicted entry (the miss path drops it). -/
theorem access_evEntry_none {π : Type} (c : Cache π) (a : Nat) (t : AccessType) :
    (c.access a t).1.evictedEntry = none := by
  rcases hst : c.getSetAndTag a with ⟨set, tag⟩
  rcases hf : c.findEntry set tag with _ | w
  · by_cases hcond : (t == AccessType.Read ||
        (t == AccessType.Write && c.cfg.writeAllocate)) = true
    · rw [access_missAlloc_eq c a t hst rfl rfl hf hcond]
    · rw [access_missNoAlloc_eq c a t hst hf (by rwa [Bool.not_eq_true] at hcond)]
  · rw [access_hit_eq c a t hst hf]

/-- An evicted address reported by `forceEntry` is a reconstructed (64-bit)
block address. -/
theorem forceEntry_evAddr_lt {π : Type} (c : Cache π) (a : Nat) (ent : CacheEntry)
    (t : AccessType) (ev : Nat)
    (h : (c.forceEntry a ent t).1.evictedAddress = some ev) : ev < 2 ^ 64 := by
  rcases hst : c.getSetAndTag a with ⟨set, tag⟩
  rcases hf : c.findEntry set tag with _ | w
  · rw [forceEntry_notFound_eq c a ent t hst rfl rfl hf] at h
    have h2 : (if (((c.entries.getD set []).getD
          (c.pol.getVictim c.polSt set (c.entries.getD set []).length).1 {}).valid &&
          ((c.entries.getD set []).getD
            (c.pol.getVictim c.polSt set (c.entries.getD set []).length).1 {}).dirty) = true
        then
          some (c.cfg.reconstructAddress set
            ((c.entries.getD set []).getD
              (c.pol.getVictim c.polSt set (c.entries.getD set []).length).1 {}).tag)
        else none) = some ev := h
    split at h2
    · rw [Option.some.injEq] at h2
      rw [← h2]
      exact reconstruct_lt c.cfg set _
    · exact absurd h2 (by simp)
  · rw [forceEntry_found_eq c a ent t hst hf] at h
    exact absurd h (by simp)

/-- Membership phrased through `findEntry` at the decoded pair. -/
theorem containsAddr_eq_findEntry {π : Type} (c : Cache π) (a : Nat)
    {set tag : Nat} (hst : c.getSetAndTag a = (set, tag)) :
    c.containsAddr a = (c.findEntry set tag).isSome := by
  show (c.findEntry (c.getSetAndTag a).1 (c.getSetAndTag a).2).isSome = _
  rw [hst]

/-- Membership depends only on the decoded (set, tag) pair. -/
theorem containsAddr_decode_congr {π : Type} (c : Cache π) (x y : Nat)
    (h : c.getSetAndTag x = c.getSetAndTag y) :
    c.containsAddr x = c.containsAddr y := by
  unfold Cache.containsAddr
  rw [h]

/-- Two addresses decode to the same (set, tag) pair exactly when they name
the same block (same address above the offset bits). -/
theorem getSetAndTag_eq_iff {π : Type} (c : Cache π) (x y : Nat)
    (h64 : c.cfg.getBlockOffsetBits + c.cfg.getIndexBits < 64) :
    c.getSetAndTag x = c.getSetAndTag y ↔
      x >>> c.cfg.getBlockOffsetBits = y >>> c.cfg.getBlockOffsetBits := by
  unfold Cache.getSetAndTag
  rw [Prod.mk.injEq]
  exact decode_eq_iff x y _ _ h64

/-- A reconstructed in-range block address decodes back to its (set, tag)
pair. -/
theorem victim_decode {π : Type} (c : Cache π) {set vtag : Nat}
    (hwf : CacheWF c) (hset : set < 2 ^ c.cfg.getIndexBits)
    (hvtag : vtag < 2 ^ (64 - (c.cfg.getBlockOffsetBits + c.cfg.getIndexBits))) :
    c.getSetAndTag (c.cfg.reconstructAddress set vtag) = (set, vtag) := by
  have h := decode_reconstruct c.cfg set vtag hset hvtag hwf.1
  show (getIndex _ _ _, getTag _ _ _) = (set, vtag)
  rw [h.1, h.2]

/-- An access hits exactly when the block is resident. -/
theorem access_hit_iff {π : Type} (c : Cache π) (a : Nat) (t : AccessType) :
    (c.access a t).1.hit = c.containsAddr a := by
  rcases hst : c.getSetAndTag a with ⟨set, tag⟩
  rw [containsAddr_eq_findEntry c a hst]
  rcases hf : c.findEntry set tag with _ | w
  · by_cases hcond : (t == AccessType.Read ||
        (t == AccessType.Write && c.cfg.writeAllocate)) = true
    · rw [access_missAlloc_eq c a t hst rfl rfl hf hcond]
      rfl
    · rw [access_missNoAlloc_eq c a t hst hf (by rwa [Bool.not_eq_true] at hcond)]
      rfl
  · rw [access_hit_eq c a t hst hf]
    rfl

/-- An access only ever adds the accessed block. -/
theorem access_contains_mono {π : Type} (c : Cache π) (a : Nat) (t : AccessType)
    (x : Nat) (hx : (c.access a t).2.containsAddr x = true) :
    c.containsAddr x = true ∨ c.getSetAndTag x = c.getSetAndTag a := by
  rcases hst : c.getSetAndTag a with ⟨set, tag⟩
  rcases hf : c.findEntry set tag with _ | w
  · by_cases hcond : (t == AccessType.Read ||
        (t == AccessType.Write && c.cfg.writeAllocate)) = true
    · rcases alloc_contains_mono c a t hst rfl rfl hf hcond x hx with h | h
      · exact Or.inl h
      · right
        exact h
    · rw [access_missNoAlloc_contains c a t hst hf
        (by rwa [Bool.not_eq_true] at hcond) x] at hx
      exact Or.inl hx
  · rw [access_hit_contains c a t hst hf x] at hx
    exact Or.inl hx

/-- Full description of an access that reports an eviction: it was an
allocating miss whose policy-chosen victim was valid, and the reported
address is the victim's reconstructed block address. -/
theorem access_evAddr_facts {π : Type} (c : Cache π) (a : Nat) (t : AccessType)
    (ev : Nat) (h : (c.access a t).1.evictedAddress = some ev) :
    ∃ set tag,
      c.getSetAndTag a = (set, tag) ∧
      c.findEntry set tag = none ∧
      ((c.entries.getD set []).getD
        (c.pol.getVictim c.polSt set (c.entries.getD set []).length).1 {}).valid = true ∧
      ev = c.cfg.reconstructAddress set
        ((c.entries.getD set []).getD
          (c.pol.getVictim c.polSt set (c.entries.getD set []).length).1 {}).tag := by
  rcases hst : c.getSetAndTag a with ⟨set, tag⟩
  rcases hf : c.findEntry set tag with _ | w
  · by_cases hcond : (t == AccessType.Read ||
        (t == AccessType.Write && c.cfg.writeAllocate)) = true
    · rw [access_missAlloc_eq c a t hst rfl rfl hf hcond] at h
      have h2 : (if ((c.entries.getD set []).getD
            (c.pol.getVictim c.polSt set (c.entries.getD set []).length).1 {}).valid = true then
              some (c.cfg.reconstructAddress set
                ((c.entries.getD set []).getD
                  (c.pol.getVictim c.polSt set (c.entries.getD set []).length).1 {}).tag)
            else none) = some ev := h
      split at h2
      · rename_i hv
        rw [Option.some.injEq] at h2
        exact ⟨set, tag, rfl, hf, hv, h2.symm⟩
      · exact absurd h2 (by simp)
    · rw [access_missNoAlloc_eq c a t hst hf (by rwa [Bool.not_eq_true] at hcond)] at h
      exact absurd h (by simp)
  · rw [access_hit_eq c a t hst hf] at h
    exact absurd h (by simp)

/-- Full description of a force-install that reports an eviction: the tag
was absent and the policy-chosen victim was valid and dirty; the reported
address is the victim's reconstructed block address. -/
theorem forceEntry_evAddr_facts {π : Type} (c : Cache π) (a : Nat)
    (ent : CacheEntry) (t : AccessType) (ev : Nat)
    (h : (c.forceEntry a ent t).1.evictedAddress = some ev) :
    ∃ set tag,
      c.getSetAndTag a = (set, tag) ∧
      c.findEntry set tag = none ∧
      ((c.entries.getD set []).getD
        (c.pol.getVictim c.polSt set (c.entries.getD set []).length).1 {}).valid = true ∧
      ev = c.cfg.reconstructAddress set
        ((c.entries.getD set []).getD
          (c.pol.getVictim c.polSt set (c.entries.getD set []).length).1 {}).tag := by
  rcases hst : c.getSetAndTag a with ⟨set, tag⟩
  rcases hf : c.findEntry set tag with _ | w
  · rw [forceEntry_notFound_eq c a ent t hst rfl rfl hf] at h
    have h2 : (if (((c.entries.getD set []).getD
          (c.pol.getVictim c.polSt set (c.entries.getD set []).length).1 {}).valid &&
          ((c.entries.getD set []).getD
            (c.pol.getVictim c.polSt set (c.entries.getD set []).length).1 {}).dirty) = true
        then
          some (c.cfg.reconstructAddress set
            ((c.entries.getD set []).getD
              (c.pol.getVictim c.polSt set (c.entries.getD set []).length).1 {}).tag)
        else none) = some ev := h
    split at h2
    · rename_i hv
      rw [Bool.and_eq_true] at hv
      rw [Option.some.injEq] at h2
      exact ⟨set, tag, rfl, hf, hv.1, h2.symm⟩
    · exact absurd h2 (by simp)
  · rw [forceEntry_found_eq c a ent t hst hf] at h
    exact absurd h (by simp)

/-- Invalidation removes the whole block of the target address: any alias
of that block is gone. -/
theorem invalidate_removes_block {π : Type} (c : Cache π) (a x : Nat)
    (hsu : SetUniq c) (hset : (c.getSetAndTag a).1 < c.entries.length)
    (hst : c.getSetAndTag x = c.getSetAndTag a) :
    (c.invalidateEntry a).containsAddr x = false := by
  have hst2 : (c.invalidateEntry a).getSetAndTag x =
      (c.invalidateEntry a).getSetAndTag a := by
    rw [← getSetAndTag_congr c (c.invalidateEntry a) (invalidate_cfg c a).symm x,
        ← getSetAndTag_congr c (c.invalidateEntry a) (invalidate_cfg c a).symm a]
    exact hst
  rw [containsAddr_decode_congr (c.invalidateEntry a) x a hst2]
  exact invalidate_contains_self c a hsu hset

/-- After the exclusive cleanup (lower-level access followed by
invalidation of the fetched address), a resident block was already resident
before the access and is not the fetched block. -/
theorem l2_cleanup_cases {π : Type} (c1 : Cache π) (a : Nat) (t : AccessType)
    (x : Nat) (hwf1 : CacheWF c1) (hsu1 : SetUniq c1) (ha : a < 2 ^ 64)
    (hx : (((c1.access a t).2).invalidateEntry a).containsAddr x = true) :
    (c1.access a t).2.containsAddr x = true ∧
    c1.getSetAndTag x ≠ c1.getSetAndTag a := by
  refine ⟨invalidate_contains_mono _ a x hx, ?_⟩
  intro heq
  have hca : (c1.access a t).2.cfg = c1.cfg := access_cfg c1 a t
  have h1 : ((c1.access a t).2).getSetAndTag x = ((c1.access a t).2).getSetAndTag a := by
    rw [getSetAndTag_congr ((c1.access a t).2) c1 hca x,
        getSetAndTag_congr ((c1.access a t).2) c1 hca a]
    exact heq
  have h2 := invalidate_removes_block ((c1.access a t).2) a x
    (access_setUniq c1 a t hsu1)
    (getSetAndTag_fst_lt ((c1.access a t).2) a (access_wf c1 a t hwf1 ha) ha)
    h1
  rw [h2] at hx
  exact Bool.false_ne_true hx

/-- Residence after an access followed by a force-install of the same
address comes from prior residence or names the accessed block. -/
theorem forceEntry_access_mono {π : Type} (c0 : Cache π) (a : Nat)
    (ent : CacheEntry) (t : AccessType) (x : Nat)
    (hx : (((c0.access a t).2).forceEntry a ent t).2.containsAddr x = true) :
    c0.containsAddr x = true ∨ c0.getSetAndTag x = c0.getSetAndTag a := by
  rcases forceEntry_contains_mono _ a ent t x hx with h | h
  · exact access_contains_mono c0 a t x h
  · right
    rwa [getSetAndTag_congr ((c0.access a t).2) c0 (access_cfg c0 a t) x,
         getSetAndTag_congr ((c0.access a t).2) c0 (access_cfg c0 a t) a] at h

/-- After the exclusive cleanup, any resident block was resident before the
whole operation and is not the fetched block. -/
theorem l2_cleanup_to_orig {π : Type} (c1 : Cache π) (a : Nat) (t : AccessType)
    (x : Nat) (hwf1 : CacheWF c1) (hsu1 : SetUniq c1) (ha : a < 2 ^ 64)
    (hx : (((c1.access a t).2).invalidateEntry a).containsAddr x = true) :
    c1.containsAddr x = true ∧ c1.getSetAndTag x ≠ c1.getSetAndTag a := by
  obtain ⟨h3, hne⟩ := l2_cleanup_cases c1 a t x hwf1 hsu1 ha hx
  rcases access_contains_mono c1 a t x h3 with h4 | h4
  · exact ⟨h4, hne⟩
  · exact absurd h4 hne

/-- A block absent from a cache and different from the force-installed one
stays absent. -/
theorem force_preserves_absent {π : Type} (c : Cache π) (addr : Nat)
    (ent : CacheEntry) (t : AccessType) (y : Nat)
    (hy : c.containsAddr y = false)
    (hne : c.getSetAndTag y ≠ c.getSetAndTag addr) :
    (c.forceEntry addr ent t).2.containsAddr y = false := by
  cases hc : (c.forceEntry addr ent t).2.containsAddr y
  · rfl
  · exfalso
    rcases forceEntry_contains_mono c addr ent t y hc with h | h
    · rw [hy] at h
      exact Bool.false_ne_true h
    · exact hne h

/-- An eviction reported by an allocating miss names a block distinct from
the accessed one, and every alias of that block is gone afterwards. -/
theorem access_evicted_block_facts {π : Type} (c : Cache π) (a : Nat)
    (t : AccessType) (ev : Nat)
    (hev : (c.access a t).1.evictedAddress = some ev)
    (hp : PolicyOk c.pol) (hwf : CacheWF c) (hsu : SetUniq c) (ha : a < 2 ^ 64) :
    c.getSetAndTag ev ≠ c.getSetAndTag a ∧
    (∀ y, c.getSetAndTag y = c.getSetAndTag ev →
      (c.access a t).2.containsAddr y = false) := by
  obtain ⟨set, tag, hst, hf, hvict, hevE⟩ := access_evAddr_facts c a t ev hev
  have hcondT := (access_evAddr_some c a t ev hev).2.2.1
  have hsetlt : set < c.entries.length := by
    have := getSetAndTag_fst_lt c a hwf ha
    rwa [hst] at this
  have hset2 : set < 2 ^ c.cfg.getIndexBits := by
    have h2 : (c.getSetAndTag a).1 =
        getIndex a c.cfg.getBlockOffsetBits c.cfg.getIndexBits := rfl
    rw [hst] at h2
    rw [show set = (set, tag).1 from rfl, h2]
    exact getIndex_lt a _ _ ha
  have hrowpos : 0 < (c.entries.getD set []).length := hwf.2.2.1 set hsetlt
  have hway : (c.pol.getVictim c.polSt set (c.entries.getD set []).length).1 <
      (c.entries.getD set []).length := hp _ _ _ hrowpos
  have hvtag_lt : ((c.entries.getD set []).getD
      (c.pol.getVictim c.polSt set (c.entries.getD set []).length).1 {}).tag <
      2 ^ (64 - (c.cfg.getBlockOffsetBits + c.cfg.getIndexBits)) :=
    hwf.2.2.2 set hsetlt _ hway hvict
  have hdec : c.getSetAndTag ev = (set, ((c.entries.getD set []).getD
      (c.pol.getVictim c.polSt set (c.entries.getD set []).length).1 {}).tag) := by
    rw [hevE]
    exact victim_decode c hwf hset2 hvtag_lt
  have hvtne : ((c.entries.getD set []).getD
      (c.pol.getVictim c.polSt set (c.entries.getD set []).length).1 {}).tag ≠ tag := by
    intro he
    exact findWay_none_iff.mp hf _ hway ⟨hvict, he⟩
  constructor
  · rw [hdec, hst]
    intro hpair
    rw [Prod.mk.injEq] at hpair
    exact hvtne hpair.2
  · intro y hy
    rw [hdec] at hy
    exact alloc_victim_gone c a t hst rfl rfl hf hcondT hvict hsu hsetlt hway y hy

/-- An eviction reported by a force-install names a block distinct from the
target one, and every alias of that block is gone afterwards. -/
theorem forceEntry_evicted_block_facts {π : Type} (c : Cache π) (a : Nat)
    (ent : CacheEntry) (t : AccessType) (ev : Nat)
    (hev : (c.forceEntry a ent t).1.evictedAddress = some ev)
    (hp : PolicyOk c.pol) (hwf : CacheWF c) (hsu : SetUniq c) (ha : a < 2 ^ 64) :
    c.getSetAndTag ev ≠ c.getSetAndTag a ∧
    (∀ y, c.getSetAndTag y = c.getSetAndTag ev →
      (c.forceEntry a ent t).2.containsAddr y = false) := by
  obtain ⟨set, tag, hst, hf, hvict, hevE⟩ := forceEntry_evAddr_facts c a ent t ev hev
  have hsetlt : set < c.entries.length := by
    have := getSetAndTag_fst_lt c a hwf ha
    rwa [hst] at this
  have hset2 : set < 2 ^ c.cfg.getIndexBits := by
    have h2 : (c.getSetAndTag a).1 =
        getIndex a c.cfg.getBlockOffsetBits c.cfg.getIndexBits := rfl
    rw [hst] at h2
    rw [show set = (set, tag).1 from rfl, h2]
    exact getIndex_lt a _ _ ha
  have hrowpos : 0 < (c.entries.getD set []).length := hwf.2.2.1 set hsetlt
  have hway : (c.pol.getVictim c.polSt set (c.entries.getD set []).length).1 <
      (c.entries.getD set []).length := hp _ _ _ hrowpos
  have hvtag_lt : ((c.entries.getD set []).getD
      (c.pol.getVictim c.polSt set (c.entries.getD set []).length).1 {}).tag <
      2 ^ (64 - (c.cfg.getBlockOffsetBits + c.cfg.getIndexBits)) :=
    hwf.2.2.2 set hsetlt _ hway hvict
  have hdec : c.getSetAndTag ev = (set, ((c.entries.getD set []).getD
      (c.pol.getVictim c.polSt set (c.entries.getD set []).length).1 {}).tag) := by
    rw [hevE]
    exact victim_decode c hwf hset2 hvtag_lt
  have hvtne : ((c.entries.getD set []).getD
      (c.pol.getVictim c.polSt set (c.entries.getD set []).length).1 {}).tag ≠ tag := by
    intro he
    exact findWay_none_iff.mp hf _ hway ⟨hvict, he⟩
  constructor
  · rw [hdec, hst]
    intro hpair
    rw [Prod.mk.injEq] at hpair
    exact hvtne hpair.2
  · intro y hy
    rw [hdec] at hy
    exact forceEntry_victim_gone c a ent t hst rfl rfl hf hvict hsu hsetlt hway y hy

/-- Core of the exclusivity preservation: if every surviving L1 block comes
from the old L1 or names the fetched block, and every surviving L2 block
either was an old L2 block other than the fetched one or names a block that
the new L1 provably lacks, then the levels stay disjoint. -/
theorem disj_step_core {π : Type} (c0 c1 c0f c1f : Cache π) (a : Nat)
    (hblockI : ∀ x y : Nat, (c0.getSetAndTag x = c0.getSetAndTag y) ↔
      (c1.getSetAndTag x = c1.getSetAndTag y))
    (hdisj : ∀ x, x < 2 ^ 64 → ¬(c0.containsAddr x = true ∧ c1.containsAddr x = true))
    (hA_mono : ∀ x, c0f.containsAddr x = true →
      c0.containsAddr x = true ∨ c0.getSetAndTag x = c0.getSetAndTag a)
    (hB_mono : ∀ x, c1f.containsAddr x = true →
      (c1.containsAddr x = true ∧ c1.getSetAndTag x ≠ c1.getSetAndTag a) ∨
      c0f.containsAddr x = false) :
    ∀ x, x < 2 ^ 64 → ¬(c0f.containsAddr x = true ∧ c1f.containsAddr x = true) := by
  intro x hx hand
  rcases hB_mono x hand.2 with ⟨hB3, hBne⟩ | hBf
  · rcases hA_mono x hand.1 with hA2 | hA2
    · exact hdisj x hx ⟨hA2, hB3⟩
    · exact hBne ((hblockI x a).mp hA2)
  · rw [hBf] at hand
    exact Bool.false_ne_true hand.1

/-! ### The two-level exclusive hierarchy access, reduced to `hier2Step` -/

/-- On a two-level hierarchy whose L2 is Exclusive, `hierAccess` performs
exactly the branches of `hier2Step`. -/
theorem hierAccess_twoLevel {π : Type} (c0 c1 : Cache π) (a : Nat)
    (t : AccessType) (hexcl : c1.cfg.inclusionPolicy = .Exclusive) :
    (hierAccess ⟨[c0, c1]⟩ a t).2 =
      ⟨(hier2Step c0 c1 a t).1 :: (hier2Step c0 c1 a t).2⟩ := by
  have hexclB : (c1.cfg.inclusionPolicy == InclusionPolicy.Exclusive) = true := by
    rw [hexcl]
    rfl
  unfold hierAccess hier2Step
  simp only [hexclB]
  rcases hr1 : c0.access a t with ⟨r1, c0a⟩
  cases hhit : r1.hit
  · simp only [Bool.false_eq_true, if_false]
    rcases hr2 : c1.access a t with ⟨r2, c1a⟩
    have hc1cfg : c1a.cfg = c1.cfg := by
      have := access_cfg c1 a t
      rw [hr2] at this
      exact this
    simp only [loopC, hr2]
    cases h2hit : r2.hit
    · simp only [Bool.false_eq_true, if_false, loopC]
      by_cases hcond : (t == AccessType.Read ||
          (t == AccessType.Write && c0.cfg.writeAllocate)) = true
      · simp only [hcond, if_true]
        rfl
      · rw [Bool.not_eq_true] at hcond
        simp only [hcond, Bool.false_eq_true, if_false]
        rfl
    · simp only [if_true, hc1cfg, hexcl, if_pos rfl]
      cases hge : c1a.getEntry a
      · rfl
      · rfl
  · simp only [if_true]

/-- The trivial policy is in range. -/
theorem zeroPolicy_ok : PolicyOk zeroPolicy := fun _ _ _ h => h

/-- Tracker evaluation: a reported eviction enters the tracker. -/
theorem trackerOf_someAddr {π : Type} (r : CacheResult) (c : Cache π)
    (tr : Option (Nat × CacheEntry)) (ev : Nat) (h : r.evictedAddress = some ev) :
    trackerOf r c tr =
      some (ev, match r.evictedEntry with
                | some e => e
                | none => fallbackEntry c ev) := by
  unfold trackerOf
  rw [h]

/-- Tracker evaluation: without a reported eviction the tracker survives. -/
theorem trackerOf_noneAddr {π : Type} (r : CacheResult) (c : Cache π)
    (tr : Option (Nat × CacheEntry)) (h : r.evictedAddress = none) :
    trackerOf r c tr = tr := by
  unfold trackerOf
  rw [h]

/-- Step-E evaluation: an empty tracker changes nothing. -/
theorem applyTracker_none {π : Type} (a : Nat) (ls : List (Cache π)) :
    applyTracker a none ls = ls := rfl

/-- Step-E evaluation: a tracked eviction different from the fetched address
is force-installed into the (single) lower level. -/
theorem applyTracker_some_single {π : Type} (a ev : Nat) (ent : CacheEntry)
    (c : Cache π) (hne : (ev == a) = false) :
    applyTracker a (some (ev, ent)) [c] = [(c.forceEntry ev ent .Write).2] := by
  show (if (ev == a) = true then [c] else [(c.forceEntry ev ent .Write).2]) =
    [(c.forceEntry ev ent .Write).2]
  rw [hne]
  simp only [Bool.false_eq_true, if_false]

/-- Step-E evaluation: a tracked eviction equal to the fetched address is
dropped. -/
theorem applyTracker_self {π : Type} (a ev : Nat) (ent : CacheEntry)
    (ls : List (Cache π)) (heq : (ev == a) = true) :
    applyTracker a (some (ev, ent)) ls = ls := by
  show (if (ev == a) = true then ls else _) = ls
  rw [heq]
  simp only [if_true]

/-- Level 1 of a two-level hierarchy value. -/
theorem hierContains_pair {π : Type} (x y : Cache π) (ev : Nat) :
    hierContains ⟨[x, y]⟩ 1 ev = y.containsAddr ev := rfl

/-- Level 0 of a two-level hierarchy value. -/
theorem hierContains_pair_fst {π : Type} (x y : Cache π) (ev : Nat) :
    hierContains ⟨[x, y]⟩ 0 ev = x.containsAddr ev := rfl

/-! ### Branch equations for `hier2Step` -/

theorem hier2Step_hit_eq {π : Type} (c0 c1 : Cache π) (a : Nat) (t : AccessType)
    (h1 : (c0.access a t).1.hit = true) :
    hier2Step c0 c1 a t = ((c0.access a t).2, [c1]) := by
  simp only [hier2Step, h1, if_true]

theorem hier2Step_promote_eq {π : Type} (c0 c1 : Cache π) (a : Nat)
    (t : AccessType) (ent : CacheEntry)
    (h1 : (c0.access a t).1.hit = false)
    (h2 : (c1.access a t).1.hit = true)
    (hge : ((c1.access a t).2).getEntry a = some ent) :
    hier2Step c0 c1 a t =
      (((c0.access a t).2.forceEntry a ent t).2,
       applyTracker a
         (trackerOf ((c0.access a t).2.forceEntry a ent t).1
           ((c0.access a t).2.forceEntry a ent t).2
           (trackerOf (c0.access a t).1 (c0.access a t).2 none))
         [((c1.access a t).2.invalidateEntry a)]) := by
  simp only [hier2Step, h1, h2, hge, Bool.false_eq_true, if_false, if_true]

theorem hier2Step_promoteNone_eq {π : Type} (c0 c1 : Cache π) (a : Nat)
    (t : AccessType)
    (h1 : (c0.access a t).1.hit = false)
    (h2 : (c1.access a t).1.hit = true)
    (hge : ((c1.access a t).2).getEntry a = none) :
    hier2Step c0 c1 a t =
      ((c0.access a t).2,
       applyTracker a (trackerOf (c0.access a t).1 (c0.access a t).2 none)
         [(c1.access a t).2]) := by
  simp only [hier2Step, h1, h2, hge, Bool.false_eq_true, if_false, if_true]

theorem hier2Step_allMissAlloc_eq {π : Type} (c0 c1 : Cache π) (a : Nat)
    (t : AccessType)
    (h1 : (c0.access a t).1.hit = false)
    (h2 : (c1.access a t).1.hit = false)
    (hcond : (t == AccessType.Read || (t == AccessType.Write && c0.cfg.writeAllocate)) = true) :
    hier2Step c0 c1 a t =
      ((c0.access a t).2,
       applyTracker a (trackerOf (c0.access a t).1 (c0.access a t).2 none)
         [((c1.access a t).2.invalidateEntry a)]) := by
  simp only [hier2Step, h1, h2, hcond, Bool.false_eq_true, if_false, if_true]

theorem hier2Step_allMissNoAlloc_eq {π : Type} (c0 c1 : Cache π) (a : Nat)
    (t : AccessType)
    (h1 : (c0.access a t).1.hit = false)
    (h2 : (c1.access a t).1.hit = false)
    (hcond : (t == AccessType.Read || (t == AccessType.Write && c0.cfg.writeAllocate)) = false) :
    hier2Step c0 c1 a t =
      ((c0.access a t).2,
       applyTracker a (trackerOf (c0.access a t).1 (c0.access a t).2 none)
         [(c1.access a t).2]) := by
  simp only [hier2Step, h1, h2, hcond, Bool.false_eq_true, if_false, if_true]

/-- A force-install of a 64-bit block address into any cache derived from a
wellformed `c1` by operations preserving configuration, policy and geometry
leaves the block resident. -/
theorem twoStep_l2_install {π : Type} (c1 c1x : Cache π) (ev : Nat)
    (ent : CacheEntry) (t2 : AccessType)
    (hpol1 : PolicyOk c1.pol) (hwf1 : CacheWF c1) (hevlt : ev < 2 ^ 64)
    (hcfg : c1x.cfg = c1.cfg) (hpols : c1x.pol = c1.pol)
    (hlen : c1x.entries.length = c1.entries.length)
    (hrowlen : ∀ s, (c1x.entries.getD s []).length = (c1.entries.getD s []).length) :
    ((c1x.forceEntry ev ent t2).2).containsAddr ev = true := by
  have hsetlt : (c1x.getSetAndTag ev).1 < c1x.entries.length := by
    have h1 : (c1x.getSetAndTag ev).1 =
        getIndex ev c1.cfg.getBlockOffsetBits c1.cfg.getIndexBits := by
      unfold Cache.getSetAndTag
      rw [hcfg]
    rw [h1, hlen]
    exact lt_of_lt_of_le (getIndex_lt ev _ _ hevlt) hwf1.2.1
  apply forceEntry_installs
  · rw [hpols]
    exact hpol1
  · exact hsetlt
  · rw [hrowlen]
    apply hwf1.2.2.1
    rw [← hlen]
    exact hsetlt

/-- A missing block means the lookup at its decoded pair fails. -/
theorem findEntry_none_of_not_contains {π : Type} (c : Cache π) (a : Nat)
    {set tag : Nat} (hst : c.getSetAndTag a = (set, tag))
    (h : c.containsAddr a = false) : c.findEntry set tag = none := by
  have h3 : (c.findEntry set tag).isSome = false := by
    rw [← containsAddr_eq_findEntry c a hst]
    exact h
  rcases hfe : c.findEntry set tag with _ | w
  · rfl
  · rw [hfe] at h3
    simp at h3

/-- One `CacheHierarchy::access` on a two-level hierarchy with equal block
offset widths preserves configurations, policies, wellformedness, tag
uniqueness and the disjointness of the two levels. -/
theorem hier2Step_preserves {π : Type} (c0 c1 : Cache π) (a : Nat) (t : AccessType)
    (hB : c0.cfg.getBlockOffsetBits = c1.cfg.getBlockOffsetBits)
    (hp0 : PolicyOk c0.pol) (_hp1 : PolicyOk c1.pol)
    (hwf0 : CacheWF c0) (hwf1 : CacheWF c1)
    (hsu0 : SetUniq c0) (hsu1 : SetUniq c1)
    (hdisj : ∀ x, x < 2 ^ 64 → ¬(c0.containsAddr x = true ∧ c1.containsAddr x = true))
    (ha : a < 2 ^ 64) :
    ∃ cL1 cL2,
      hier2Step c0 c1 a t = (cL1, [cL2]) ∧
      cL1.cfg = c0.cfg ∧ cL1.pol = c0.pol ∧ CacheWF cL1 ∧ SetUniq cL1 ∧
      cL2.cfg = c1.cfg ∧ cL2.pol = c1.pol ∧ CacheWF cL2 ∧ SetUniq cL2 ∧
      ∀ x, x < 2 ^ 64 → ¬(cL1.containsAddr x = true ∧ cL2.containsAddr x = true) := by
  have hblockI : ∀ x y : Nat, (c0.getSetAndTag x = c0.getSetAndTag y) ↔
      (c1.getSetAndTag x = c1.getSetAndTag y) := by
    intro x y
    rw [getSetAndTag_eq_iff c0 x y hwf0.1, getSetAndTag_eq_iff c1 x y hwf1.1, hB]
  by_cases h1 : (c0.access a t).1.hit = true
  · have h1c : c0.containsAddr a = true := by
      rw [← access_hit_iff c0 a t]
      exact h1
    rcases hst0 : c0.getSetAndTag a with ⟨s0, t0⟩
    have hfs : (c0.findEntry s0 t0).isSome = true := by
      rw [← containsAddr_eq_findEntry c0 a hst0]
      exact h1c
    rcases Option.isSome_iff_exists.mp hfs with ⟨w, hf0⟩
    refine ⟨(c0.access a t).2, c1, hier2Step_hit_eq c0 c1 a t h1,
      access_cfg c0 a t, access_pol c0 a t, access_wf c0 a t hwf0 ha,
      access_setUniq c0 a t hsu0, rfl, rfl, hwf1, hsu1, ?_⟩
    intro x hx hand
    obtain ⟨hA2, hB2⟩ := hand
    rw [access_hit_contains c0 a t hst0 hf0 x] at hA2
    exact hdisj x hx ⟨hA2, hB2⟩
  · rw [Bool.not_eq_true] at h1
    have h1c : c0.containsAddr a = false := by
      rw [← access_hit_iff c0 a t]
      exact h1
    have hstc0a : ∀ y, ((c0.access a t).2).getSetAndTag y = c0.getSetAndTag y :=
      fun y => getSetAndTag_congr _ c0 (access_cfg c0 a t) y
    have hstc2 : ∀ y, (((c1.access a t).2).invalidateEntry a).getSetAndTag y =
        c1.getSetAndTag y := fun y => by
      rw [getSetAndTag_congr _ ((c1.access a t).2) (invalidate_cfg _ a) y,
          getSetAndTag_congr _ c1 (access_cfg c1 a t) y]
    have hc2_cfg : (((c1.access a t).2).invalidateEntry a).cfg = c1.cfg := by
      rw [invalidate_cfg, access_cfg]
    have hc2_pol : (((c1.access a t).2).invalidateEntry a).pol = c1.pol := by
      rw [invalidate_pol, access_pol]
    have hc2_wf : CacheWF (((c1.access a t).2).invalidateEntry a) :=
      invalidate_wf _ a (access_wf c1 a t hwf1 ha)
    have hc2_su : SetUniq (((c1.access a t).2).invalidateEntry a) :=
      invalidate_setUniq _ a (access_setUniq c1 a t hsu1)
    have hB_c2 : ∀ x, (((c1.access a t).2).invalidateEntry a).containsAddr x = true →
        c1.containsAddr x = true ∧ c1.getSetAndTag x ≠ c1.getSetAndTag a :=
      fun x hx => l2_cleanup_to_orig c1 a t x hwf1 hsu1 ha hx
    by_cases h2 : (c1.access a t).1.hit = true
    · have h2c : c1.containsAddr a = true := by
        rw [← access_hit_iff c1 a t]
        exact h2
      rcases hst1 : c1.getSetAndTag a with ⟨s1, t1⟩
      have hfs1 : (c1.findEntry s1 t1).isSome = true := by
        rw [← containsAddr_eq_findEntry c1 a hst1]
        exact h2c
      rcases Option.isSome_iff_exists.mp hfs1 with ⟨w1, hf1⟩
      have hc1a : (c1.access a t).2.containsAddr a = true := by
        rw [access_hit_contains c1 a t hst1 hf1 a]
        exact h2c
      rcases getEntry_some_of_contains _ a hc1a with ⟨ent, hge⟩
      have hc0f_cfg : (((c0.access a t).2).forceEntry a ent t).2.cfg = c0.cfg := by
        rw [forceEntry_cfg, access_cfg]
      have hc0f_pol : (((c0.access a t).2).forceEntry a ent t).2.pol = c0.pol := by
        rw [forceEntry_pol, access_pol]
      have hc0f_wf : CacheWF (((c0.access a t).2).forceEntry a ent t).2 :=
        forceEntry_wf _ a ent t (access_wf c0 a t hwf0 ha) ha
      have hc0f_su : SetUniq (((c0.access a t).2).forceEntry a ent t).2 :=
        forceEntry_setUniq _ a ent t (access_setUniq c0 a t hsu0)
      have hA_mono : ∀ x,
          (((c0.access a t).2).forceEntry a ent t).2.containsAddr x = true →
          c0.containsAddr x = true ∨ c0.getSetAndTag x = c0.getSetAndTag a :=
        fun x hx => forceEntry_access_mono c0 a ent t x hx
      rcases hfev : (((c0.access a t).2).forceEntry a ent t).1.evictedAddress
        with _ | ev2
      · rcases hev0 : (c0.access a t).1.evictedAddress with _ | ev
        · refine ⟨_, _, ?_, hc0f_cfg, hc0f_pol, hc0f_wf, hc0f_su,
            hc2_cfg, hc2_pol, hc2_wf, hc2_su, ?_⟩
          · rw [hier2Step_promote_eq c0 c1 a t ent h1 h2 hge,
                trackerOf_noneAddr _ _ _ hfev, trackerOf_noneAddr _ _ _ hev0,
                applyTracker_none]
          · exact disj_step_core c0 c1 _ _ a hblockI hdisj hA_mono
              (fun x hx => Or.inl (hB_c2 x hx))
        · obtain ⟨hev_ne, hev_gone⟩ :=
            access_evicted_block_facts c0 a t ev hev0 hp0 hwf0 hsu0 ha
          have hevlt : ev < 2 ^ 64 := (access_evAddr_some c0 a t ev hev0).2.2.2
          have hee0 : (c0.access a t).1.evictedEntry = none := access_evEntry_none c0 a t
          have htr0 : trackerOf (c0.access a t).1 (c0.access a t).2 none =
              some (ev, fallbackEntry (c0.access a t).2 ev) := by
            rw [trackerOf_someAddr _ _ _ _ hev0, hee0]
          have hev_gone_f : ∀ y, c0.getSetAndTag y = c0.getSetAndTag ev →
              (((c0.access a t).2).forceEntry a ent t).2.containsAddr y = false := by
            intro y hy
            apply force_preserves_absent
            · exact hev_gone y hy
            · rw [hstc0a y, hstc0a a, hy]
              exact hev_ne
          by_cases heva : (ev == a) = true
          · refine ⟨_, _, ?_, hc0f_cfg, hc0f_pol, hc0f_wf, hc0f_su,
              hc2_cfg, hc2_pol, hc2_wf, hc2_su, ?_⟩
            · rw [hier2Step_promote_eq c0 c1 a t ent h1 h2 hge,
                  trackerOf_noneAddr _ _ _ hfev, htr0,
                  applyTracker_self _ _ _ _ heva]
            · exact disj_step_core c0 c1 _ _ a hblockI hdisj hA_mono
                (fun x hx => Or.inl (hB_c2 x hx))
          · have hne : (ev == a) = false := by rwa [Bool.not_eq_true] at heva
            have heq : hier2Step c0 c1 a t =
                ((((c0.access a t).2).forceEntry a ent t).2,
                 [((((c1.access a t).2).invalidateEntry a).forceEntry ev
                     (fallbackEntry (c0.access a t).2 ev) .Write).2]) := by
              rw [hier2Step_promote_eq c0 c1 a t ent h1 h2 hge,
                  trackerOf_noneAddr _ _ _ hfev, htr0,
                  applyTracker_some_single _ _ _ _ hne]
            refine ⟨_, _, heq, hc0f_cfg, hc0f_pol, hc0f_wf, hc0f_su, ?_, ?_, ?_, ?_, ?_⟩
            · rw [forceEntry_cfg]
              exact hc2_cfg
            · rw [forceEntry_pol]
              exact hc2_pol
            · exact forceEntry_wf _ ev _ .Write hc2_wf hevlt
            · exact forceEntry_setUniq _ ev _ .Write hc2_su
            · apply disj_step_core c0 c1 _ _ a hblockI hdisj hA_mono
              intro x hx
              rcases forceEntry_contains_mono _ ev _ .Write x hx with h | h
              · exact Or.inl (hB_c2 x h)
              · right
                rw [hstc2 x, hstc2 ev] at h
                exact hev_gone_f x ((hblockI x ev).mpr h)
      · obtain ⟨hev2_ne, hev2_gone⟩ := forceEntry_evicted_block_facts
          ((c0.access a t).2) a ent t ev2 hfev
          (by rw [access_pol]; exact hp0)
          (access_wf c0 a t hwf0 ha) (access_setUniq c0 a t hsu0) ha
        have hev2lt : ev2 < 2 ^ 64 := forceEntry_evAddr_lt _ a ent t ev2 hfev
        have hev2_gone0 : ∀ y, c0.getSetAndTag y = c0.getSetAndTag ev2 →
            (((c0.access a t).2).forceEntry a ent t).2.containsAddr y = false := by
          intro y hy
          apply hev2_gone
          rw [hstc0a y, hstc0a ev2]
          exact hy
        by_cases heva : (ev2 == a) = true
        · refine ⟨_, _, ?_, hc0f_cfg, hc0f_pol, hc0f_wf, hc0f_su,
            hc2_cfg, hc2_pol, hc2_wf, hc2_su, ?_⟩
          · rw [hier2Step_promote_eq c0 c1 a t ent h1 h2 hge,
                trackerOf_someAddr _ _ _ _ hfev,
                applyTracker_self _ _ _ _ heva]
          · exact disj_step_core c0 c1 _ _ a hblockI hdisj hA_mono
              (fun x hx => Or.inl (hB_c2 x hx))
        · have hne : (ev2 == a) = false := by rwa [Bool.not_eq_true] at heva
          obtain ⟨ent2, htrF⟩ : ∃ e2,
              trackerOf (((c0.access a t).2).forceEntry a ent t).1
                (((c0.access a t).2).forceEntry a ent t).2
                (trackerOf (c0.access a t).1 (c0.access a t).2 none) = some (ev2, e2) :=
            ⟨_, trackerOf_someAddr _ _ _ _ hfev⟩
          have heq : hier2Step c0 c1 a t =
              ((((c0.access a t).2).forceEntry a ent t).2,
               [((((c1.access a t).2).invalidateEntry a).forceEntry ev2
                   ent2 .Write).2]) := by
            rw [hier2Step_promote_eq c0 c1 a t ent h1 h2 hge, htrF,
                applyTracker_some_single _ _ _ _ hne]
          refine ⟨_, _, heq, hc0f_cfg, hc0f_pol, hc0f_wf, hc0f_su, ?_, ?_, ?_, ?_, ?_⟩
          · rw [forceEntry_cfg]
            exact hc2_cfg
          · rw [forceEntry_pol]
            exact hc2_pol
          · exact forceEntry_wf _ ev2 _ .Write hc2_wf hev2lt
          · exact forceEntry_setUniq _ ev2 _ .Write hc2_su
          · apply disj_step_core c0 c1 _ _ a hblockI hdisj hA_mono
            intro x hx
            rcases forceEntry_contains_mono _ ev2 _ .Write x hx with h | h
            · exact Or.inl (hB_c2 x h)
            · right
              rw [hstc2 x, hstc2 ev2] at h
              exact hev2_gone0 x ((hblockI x ev2).mpr h)
    · rw [Bool.not_eq_true] at h2
      by_cases hcond : (t == AccessType.Read ||
          (t == AccessType.Write && c0.cfg.writeAllocate)) = true
      · rcases hev0 : (c0.access a t).1.evictedAddress with _ | ev
        · refine ⟨_, _, ?_, access_cfg c0 a t, access_pol c0 a t,
            access_wf c0 a t hwf0 ha, access_setUniq c0 a t hsu0,
            hc2_cfg, hc2_pol, hc2_wf, hc2_su, ?_⟩
          · rw [hier2Step_allMissAlloc_eq c0 c1 a t h1 h2 hcond,
                trackerOf_noneAddr _ _ _ hev0, applyTracker_none]
          · exact disj_step_core c0 c1 _ _ a hblockI hdisj
              (access_contains_mono c0 a t)
              (fun x hx => Or.inl (hB_c2 x hx))
        · obtain ⟨hev_ne, hev_gone⟩ :=
            access_evicted_block_facts c0 a t ev hev0 hp0 hwf0 hsu0 ha
          have hevlt : ev < 2 ^ 64 := (access_evAddr_some c0 a t ev hev0).2.2.2
          have hee0 : (c0.access a t).1.evictedEntry = none := access_evEntry_none c0 a t
          have htr0 : trackerOf (c0.access a t).1 (c0.access a t).2 none =
              some (ev, fallbackEntry (c0.access a t).2 ev) := by
            rw [trackerOf_someAddr _ _ _ _ hev0, hee0]
          by_cases heva : (ev == a) = true
          · refine ⟨_, _, ?_, access_cfg c0 a t, access_pol c0 a t,
              access_wf c0 a t hwf0 ha, access_setUniq c0 a t hsu0,
              hc2_cfg, hc2_pol, hc2_wf, hc2_su, ?_⟩
            · rw [hier2Step_allMissAlloc_eq c0 c1 a t h1 h2 hcond, htr0,
                  applyTracker_self _ _ _ _ heva]
            · exact disj_step_core c0 c1 _ _ a hblockI hdisj
                (access_contains_mono c0 a t)
                (fun x hx => Or.inl (hB_c2 x hx))
          · have hne : (ev == a) = false := by rwa [Bool.not_eq_true] at heva
            have heq : hier2Step c0 c1 a t =
                ((c0.access a t).2,
                 [((((c1.access a t).2).invalidateEntry a).forceEntry ev
                     (fallbackEntry (c0.access a t).2 ev) .Write).2]) := by
              rw [hier2Step_allMissAlloc_eq c0 c1 a t h1 h2 hcond, htr0,
                  applyTracker_some_single _ _ _ _ hne]
            refine ⟨_, _, heq, access_cfg c0 a t, access_pol c0 a t,
              access_wf c0 a t hwf0 ha, access_setUniq c0 a t hsu0, ?_, ?_, ?_, ?_, ?_⟩
            · rw [forceEntry_cfg]
              exact hc2_cfg
            · rw [forceEntry_pol]
              exact hc2_pol
            · exact forceEntry_wf _ ev _ .Write hc2_wf hevlt
            · exact forceEntry_setUniq _ ev _ .Write hc2_su
            · apply disj_step_core c0 c1 _ _ a hblockI hdisj
                (access_contains_mono c0 a t)
              intro x hx
              rcases forceEntry_contains_mono _ ev _ .Write x hx with h | h
              · exact Or.inl (hB_c2 x h)
              · right
                rw [hstc2 x, hstc2 ev] at h
                exact hev_gone x ((hblockI x ev).mpr h)
      · have hcondF : (t == AccessType.Read ||
            (t == AccessType.Write && c0.cfg.writeAllocate)) = false := by
          rwa [Bool.not_eq_true] at hcond
        rcases hev0 : (c0.access a t).1.evictedAddress with _ | ev
        · refine ⟨(c0.access a t).2, (c1.access a t).2, ?_,
            access_cfg c0 a t, access_pol c0 a t, access_wf c0 a t hwf0 ha,
            access_setUniq c0 a t hsu0, access_cfg c1 a t, access_pol c1 a t,
            access_wf c1 a t hwf1 ha, access_setUniq c1 a t hsu1, ?_⟩
          · rw [hier2Step_allMissNoAlloc_eq c0 c1 a t h1 h2 hcondF,
                trackerOf_noneAddr _ _ _ hev0, applyTracker_none]
          · intro x hx hand
            obtain ⟨hA2, hB2⟩ := hand
            rcases hst0 : c0.getSetAndTag a with ⟨s0, t0⟩
            have hf0 : c0.findEntry s0 t0 = none :=
              findEntry_none_of_not_contains c0 a hst0 h1c
            rw [access_missNoAlloc_contains c0 a t hst0 hf0 hcondF x] at hA2
            rcases access_contains_mono c1 a t x hB2 with h4 | h4
            · exact hdisj x hx ⟨hA2, h4⟩
            · have h5 : c0.getSetAndTag x = c0.getSetAndTag a := (hblockI x a).mpr h4
              rw [containsAddr_decode_congr c0 x a h5, h1c] at hA2
              exact Bool.false_ne_true hA2
        · have hct := (access_evAddr_some c0 a t ev hev0).2.2.1
          rw [hct] at hcondF
          exact absurd hcondF (by simp)

/-- Every way of a freshly scanned empty row misses. -/
theorem findWay_replicate_none (n t : Nat) :
    findWay (List.replicate n ({} : CacheEntry)) t = none := by
  apply findWay_none_iff.mpr
  intro i hi
  rw [List.length_replicate] at hi
  have h : (List.replicate n ({} : CacheEntry)).getD i {} = {} := by
    simp [List.getD_eq_getElem?_getD, List.getElem?_replicate, hi]
  rw [h]
  intro hand
  exact Bool.false_ne_true hand.1

/-- A freshly constructed cache is trivially tag-unique (no way is valid). -/
theorem cacheInit_setUniq {π : Type} (cfg : CacheConfig) (pol : Policy π)
    (st : π) : SetUniq (cacheInit cfg pol st) := by
  have hrep : ∀ (n i : Nat), (List.replicate n ({} : CacheEntry)).getD i {} = {} := by
    intro n i
    by_cases h : i < n
    · simp [List.getD_eq_getElem?_getD, List.getElem?_replicate, h]
    · exact List.getD_eq_default _ _ (by rw [List.length_replicate]; omega)
  intro s hs i hi j hj hij hand
  have houter : (cacheInit cfg pol st).entries.getD s [] =
      List.replicate cfg.getNumWays {} ∨
      (cacheInit cfg pol st).entries.getD s [] = [] := by
    show (List.replicate cfg.getNumSets
        (List.replicate cfg.getNumWays ({} : CacheEntry))).getD s [] =
        List.replicate cfg.getNumWays {} ∨
      (List.replicate cfg.getNumSets
        (List.replicate cfg.getNumWays ({} : CacheEntry))).getD s [] = []
    by_cases h : s < cfg.getNumSets
    · left
      simp [List.getD_eq_getElem?_getD, List.getElem?_replicate, h]
    · right
      exact List.getD_eq_default _ _ (by rw [List.length_replicate]; omega)
  rcases houter with h | h
  · rw [h, hrep] at hand
    exact Bool.false_ne_true hand.1
  · rw [h] at hi
    simp at hi

/-- A freshly constructed cache holds nothing. -/
theorem cacheInit_contains_false {π : Type} (cfg : CacheConfig) (pol : Policy π)
    (st : π) (y : Nat) : (cacheInit cfg pol st).containsAddr y = false := by
  have h : ∀ (i tg : Nat), (cacheInit cfg pol st).findEntry i tg = none := by
    intro i tg
    unfold Cache.findEntry cacheInit
    simp only
    by_cases hlt : i < cfg.getNumSets
    · have h2 : (List.replicate cfg.getNumSets
          (List.replicate cfg.getNumWays ({} : CacheEntry))).getD i [] =
          List.replicate cfg.getNumWays {} := by
        simp [List.getD_eq_getElem?_getD, List.getElem?_replicate, hlt]
      rw [h2, findWay_replicate_none]
    · have h2 : (List.replicate cfg.getNumSets
          (List.replicate cfg.getNumWays ({} : CacheEntry))).getD i [] = [] :=
        List.getD_eq_default _ _ (by rw [List.length_replicate]; omega)
      rw [h2]
      rfl
  simp only [Cache.containsAddr]
  rw [h]
  rfl

/-! ### Claim theorems -/

/-- Claim C1 (code bug): inclusion is violated by the code.  In a two-level
hierarchy with Inclusive L2 (L1 fully associative 128 B / 64 B blocks, L2
direct-mapped 128 B / 64 B blocks, LRU), reading `0x0` and then `0x80` makes
L2's allocation for `0x80` evict block `0x0` — but that eviction, produced
by the Step-C search access, is discarded, and the Step-D re-access hits, so
`backinvalidate` never runs.  After the second completed access, block `0x0`
is valid in L1 and not in L2, contradicting the claimed invariant. -/
theorem c1_inclusion_violated_no_backinvalidation :
    hierContains (runTrace hierC1 [(0x0, .Read), (0x80, .Read)]) 0 0x0 = true ∧
    hierContains (runTrace hierC1 [(0x0, .Read), (0x80, .Read)]) 1 0x0 = false := by
  constructor <;> decide

/-- Claim C4 (counterexample): on the spec's Scenario 1 (direct-mapped,
256 B, 64 B blocks, reads at 0x0, 0x0, 0x100, 0x0, 0x40, 0x100) the code
does NOT produce the claimed outcomes MISS, HIT, MISS, MISS, MISS, HIT with
2 hits: the fourth access (0x0) evicted tag 1 from set 0, so the final read
of 0x100 misses. -/
theorem c4_scenario1_claimed_outcomes_false :
    runC4.2 ≠ [false, true, false, false, false, true] ∧ runC4.1.hits ≠ 2 := by
  constructor <;> decide

/-- Claim C4 (amended): Scenario 1 actually produces the outcomes MISS, HIT,
MISS, MISS, MISS, MISS, leaving hits = 1 and misses = 5 (hit rate 1/6). -/
theorem c4_scenario1_actual_outcomes :
    runC4.2 = [false, true, false, false, false, false] ∧
    runC4.1.hits = 1 ∧ runC4.1.misses = 5 := by
  refine ⟨?_, ?_, ?_⟩ <;> decide

/-- Claim C5 (counterexample): after warming a single-block direct-mapped
cache with `R 0x0`, the read of `0x40` misses and displaces the valid block
`0x0`; the outcome returned by `Cache::access` carries
`evicted_address = 0x0` but `evicted_entry = none` — the claim's "full copy
of the displaced entry" is never propagated out of `allocateEntry`. -/
theorem c5_access_drops_evicted_entry :
    ((cacheC5.entries.getD 0 []).getD 0 {}).valid = true ∧
    (cacheC5.access 0x40 .Read).1.evictedAddress = some 0x0 ∧
    (cacheC5.access 0x40 .Read).1.evictedEntry = none := by
  refine ⟨?_, ?_, ?_⟩ <;> decide

/-- Claim C5 (amended): on every allocating miss whose policy-chosen victim
way holds a valid entry, the outcome of `Cache::access` carries
`evicted_address` equal to the victim's reconstructed block address — but
`evicted_entry` is always `none`: the copy taken by `allocateEntry` is not
propagated into the access outcome. -/
theorem c5_allocating_miss_reports_address_only {π : Type} (c : Cache π)
    (a : Nat) (t : AccessType) (set tag way : Nat)
    (hst : c.getSetAndTag a = (set, tag))
    (hmiss : c.findEntry set tag = none)
    (halloc : t = .Read ∨ (t = .Write ∧ c.cfg.writeAllocate = true))
    (hway : (c.pol.getVictim c.polSt set (c.entries.getD set []).length).1 = way)
    (hvict : ((c.entries.getD set []).getD way {}).valid = true) :
    (c.access a t).1.evictedAddress =
      some (c.cfg.reconstructAddress set ((c.entries.getD set []).getD way {}).tag) ∧
    (c.access a t).1.evictedEntry = none := by
  have hcond : (t == AccessType.Read || (t == AccessType.Write && c.cfg.writeAllocate)) = true := by
    rcases halloc with h | ⟨h, hw⟩
    · subst h; rfl
    · subst h; simp [hw]
  simp only [Cache.access, hst, hmiss, hcond, if_true, Cache.allocateEntry, hway, hvict,
    if_true, and_true]

/-- Witness for the amended C5 at the single-block cache `cacheC5`
(holding block `0x0`) and the read of `0x40`. -/
theorem c5_allocating_miss_reports_address_only_witness :
    (cacheC5.getSetAndTag 0x40 = (0, 1) ∧ cacheC5.findEntry 0 1 = none ∧
     (cacheC5.pol.getVictim cacheC5.polSt 0 (cacheC5.entries.getD 0 []).length).1 = 0 ∧
     ((cacheC5.entries.getD 0 []).getD 0 {}).valid = true) ∧
    ((cacheC5.access 0x40 .Read).1.evictedAddress =
       some (cacheC5.cfg.reconstructAddress 0 ((cacheC5.entries.getD 0 []).getD 0 {}).tag) ∧
     (cacheC5.access 0x40 .Read).1.evictedEntry = none) :=
  ⟨⟨by decide, by decide, by decide, by decide⟩,
   c5_allocating_miss_reports_address_only cacheC5 0x40 .Read 0 1 0
     (by decide) (by decide) (Or.inl rfl) (by decide) (by decide)⟩

/-- Claim C6 (counterexample): the two FIFO variants are not equivalent.
With 2 ways and four disciplined allocations, the queue variant (which
never dequeues) hands out victims 0, 1, 0, 0 while the circular-counter
variant hands out 0, 1, 0, 1: they diverge at the fourth allocation (where
the oldest-installed way is way 1). -/
theorem c6_fifo_variants_diverge :
    (qRun 2 [.alloc, .alloc, .alloc, .alloc] []).2 = [0, 1, 0, 0] ∧
    (cRun 2 [.alloc, .alloc, .alloc, .alloc] (0, [])).2 = [0, 1, 0, 1] ∧
    (qRun 2 [.alloc, .alloc, .alloc, .alloc] []).2 ≠
      (cRun 2 [.alloc, .alloc, .alloc, .alloc] (0, [])).2 := by
  refine ⟨?_, ?_, ?_⟩ <;> decide

/-- The lowest-unused-way scan over the ways `0 … k-1` finds `k`. -/
theorem firstNotMemAux_range (k : Nat) :
    ∀ fuel w, w ≤ k → k < w + fuel →
    firstNotMemAux (List.range k) w fuel = some k := by
  intro fuel
  induction fuel with
  | zero => intro w _ hlt; omega
  | succ f ih =>
    intro w hw hlt
    unfold firstNotMemAux
    by_cases hwk : w < k
    · have hmem : (List.range k).contains w = true := by
        simp [List.contains, List.mem_range]
        omega
      rw [hmem]
      simp only [if_true]
      exact ih (w + 1) (by omega) (by omega)
    · have hwk2 : w = k := by omega
      subst hwk2
      have hmem : (List.range w).contains w = false := by
        simp [List.contains, List.mem_range]
      rw [hmem]
      rfl

/-- `firstNotMem` over the filled ways `0 … k-1` returns way `k` when the
set is not yet full. -/
theorem firstNotMem_range (k n : Nat) (h : k < n) :
    firstNotMem (List.range k) n = some k :=
  firstNotMemAux_range k n 0 (Nat.zero_le k) (by omega)

/-- Lockstep invariant of the two FIFO variants: starting from the state
reached after `k` disciplined allocations (queue and used-set both
`0 … min k n - 1`, counter 0 until the first post-fill eviction), both
variants emit exactly the spec's victims, as long as the run performs at
most `n + 1` allocations in total. -/
theorem c6_run_inv (n : Nat) (hn : 0 < n) :
    ∀ (es : List PEvent) (k : Nat), k ≤ n + 1 →
    disciplined n es k = true → k + allocCount es ≤ n + 1 →
    (qRun n es (List.range (min k n))).2 = fifoSpecVictims n es k ∧
    (cRun n es ((if k ≤ n then 0 else 1 % n), List.range (min k n))).2 =
      fifoSpecVictims n es k := by
  intro es
  induction es with
  | nil => intro k _ _ _; exact ⟨rfl, rfl⟩
  | cons e es ih =>
    intro k hk hd hc
    match e with
    | .touch w =>
      simp only [disciplined, Bool.and_eq_true, decide_eq_true_eq] at hd
      obtain ⟨⟨hwk, hwn⟩, hd2⟩ := hd
      have hc2 : k + allocCount es ≤ n + 1 := by
        simp only [allocCount] at hc
        omega
      have hmem : (List.range (min k n)).contains w = true := by
        simp [List.contains, List.mem_range]
        omega
      have hq : fifoQueueOnAccess (List.range (min k n)) w = List.range (min k n) := by
        unfold fifoQueueOnAccess
        rw [hmem]
        rfl
      have hcn : ∀ ctr : Nat, fifoCtrOnAccess (ctr, List.range (min k n)) w =
          (ctr, List.range (min k n)) := by
        intro ctr
        unfold fifoCtrOnAccess
        simp only [hmem, if_true]
      have := ih k hk hd2 hc2
      refine ⟨?_, ?_⟩
      · simpa only [qRun, hq, fifoSpecVictims] using this.1
      · simpa only [cRun, hcn, fifoSpecVictims] using this.2
    | .alloc =>
      simp only [disciplined] at hd
      simp only [allocCount] at hc
      have hkn : k ≤ n := by omega
      have hmin : min k n = k := by omega
      by_cases hklt : k < n
      · -- filling phase: both variants hand out way k
        have hqv : fifoQueueGetVictim (List.range k) n = k := by
          unfold fifoQueueGetVictim
          rw [List.length_range, if_pos hklt, firstNotMem_range k n hklt]
        have hcv : fifoCtrGetVictim (0, List.range k) n = (k, (0, List.range k)) := by
          unfold fifoCtrGetVictim
          simp only [List.length_range]
          rw [if_pos hklt, firstNotMem_range k n hklt]
        have hnomem : (List.range k).contains k = false := by
          simp [List.contains, List.mem_range]
        have hext : fifoQueueOnAccess (List.range k) k = List.range (k + 1) := by
          unfold fifoQueueOnAccess
          rw [hnomem]
          simp [List.range_succ]
        have hextc : fifoCtrOnAccess (0, List.range k) k = (0, List.range (k + 1)) := by
          unfold fifoCtrOnAccess
          simp only [hnomem, Bool.false_eq_true, if_false]
          rw [List.range_succ]
        have hmin2 : min (k + 1) n = k + 1 := by omega
        have ihr := ih (k + 1) (by omega) hd (by omega)
        rw [hmin2] at ihr
        constructor
        · simp only [qRun, hmin, hqv, hext, fifoSpecVictims, if_pos hklt]
          rw [ihr.1]
        · simp only [cRun, hmin, if_pos hkn, hcv, hextc, fifoSpecVictims, if_pos hklt]
          rw [if_pos (show k + 1 ≤ n by omega)] at ihr
          rw [ihr.2]
      · -- the set is full (k = n): both variants hand out way 0
        have hkeq : k = n := by omega
        subst hkeq
        obtain ⟨m, hm⟩ : ∃ m, k = m + 1 := ⟨k - 1, by omega⟩
        have hhead : (List.range k).headD 0 = 0 := by
          rw [hm, List.range_succ_eq_map]
          rfl
        have hqv : fifoQueueGetVictim (List.range k) k = 0 := by
          unfold fifoQueueGetVictim
          rw [List.length_range, if_neg (by omega), hhead]
        have hcv : fifoCtrGetVictim (0, List.range k) k = (0, (1 % k, List.range k)) := by
          unfold fifoCtrGetVictim
          simp only [List.length_range]
          rw [if_neg (by omega)]
        have hmem0 : (List.range k).contains 0 = true := by
          simp [List.contains, List.mem_range]
          omega
        have hext : fifoQueueOnAccess (List.range k) 0 = List.range k := by
          unfold fifoQueueOnAccess
          rw [hmem0]
          rfl
        have hextc : fifoCtrOnAccess (1 % k, List.range k) 0 = (1 % k, List.range k) := by
          unfold fifoCtrOnAccess
          simp only [hmem0, if_true]
        have hmin2 : min (k + 1) k = k := by omega
        have ihr := ih (k + 1) (by omega) hd (by omega)
        rw [hmin2, if_neg (show ¬ k + 1 ≤ k by omega)] at ihr
        constructor
        · simp only [qRun, hmin, hqv, hext, fifoSpecVictims]
          rw [if_neg hklt, ihr.1]
        · simp only [cRun, hmin, if_pos (le_refl k), hcv, hextc, fifoSpecVictims]
          rw [if_neg hklt, ihr.2]

/-- Claim C6 (amended): the two FIFO variants agree only through the filling
phase and the first eviction after the set fills — for every disciplined
sequence with at most `numWays + 1` allocations both return the same
victims, namely the lowest-numbered empty way while filling and the
oldest-installed way (way 0) at the first post-fill eviction.  Beyond that
they diverge (see the counterexample): the queue variant never dequeues, so
it returns way 0 forever, while the counter variant follows
oldest-installed-first. -/
theorem c6_fifo_variants_agree_through_first_eviction (n : Nat)
    (es : List PEvent) (hn : 0 < n) (hd : disciplined n es 0 = true)
    (hc : allocCount es ≤ n + 1) :
    (qRun n es []).2 = (cRun n es (0, [])).2 ∧
    (qRun n es []).2 = fifoSpecVictims n es 0 := by
  have h := c6_run_inv n hn es 0 (by omega) hd (by omega)
  rw [Nat.min_eq_left (Nat.zero_le n), if_pos (Nat.zero_le n)] at h
  simp only [List.range_zero] at h
  exact ⟨h.1.trans h.2.symm, h.1⟩

/-- Witness for the amended C6: 2 ways, events alloc, touch 0, alloc,
touch 1, alloc (three allocations — fill plus the first eviction). -/
theorem c6_fifo_variants_agree_through_first_eviction_witness :
    (0 < 2 ∧
     disciplined 2 [.alloc, .touch 0, .alloc, .touch 1, .alloc] 0 = true ∧
     allocCount [.alloc, .touch 0, .alloc, .touch 1, .alloc] ≤ 2 + 1) ∧
    ((qRun 2 [.alloc, .touch 0, .alloc, .touch 1, .alloc] []).2 =
       (cRun 2 [.alloc, .touch 0, .alloc, .touch 1, .alloc] (0, [])).2 ∧
     (qRun 2 [.alloc, .touch 0, .alloc, .touch 1, .alloc] []).2 =
       fifoSpecVictims 2 [.alloc, .touch 0, .alloc, .touch 1, .alloc] 0) :=
  ⟨⟨by decide, by decide, by decide⟩,
   c6_fifo_variants_agree_through_first_eviction 2 _ (by decide) (by decide) (by decide)⟩

/-- Claim C7 (counterexample): the claimed upper bound
`AMAT ≤ L1 latency + memory latency` fails for a two-level hierarchy with
hit rates 0 and 1, latencies 1 and 10 and memory latency 5: the collector
computes AMAT = 1 + 1·10 + 0·5 = 11 > 1 + 5. -/
theorem c7_amat_upper_bound_false :
    collectAMAT 1 0 [(1, 10)] 5 = 11 ∧ ¬ collectAMAT 1 0 [(1, 10)] 5 ≤ 1 + 5 := by
  constructor <;> norm_num [collectAMAT, List.foldl]

/-- Bounds on the AMAT accumulator: folding the per-level step keeps the
running total between its starting value and that value plus the processed
latencies, and keeps the miss-path probability in `[0, 1]`. -/
theorem amatFold_bounds (rest : List (ℚ × ℚ)) :
    ∀ tot mp : ℚ, 0 ≤ mp → mp ≤ 1 →
    (∀ p ∈ rest, 0 ≤ p.1 ∧ p.1 ≤ 1 ∧ 0 ≤ p.2) →
    tot ≤ (rest.foldl
        (fun (acc : ℚ × ℚ) (p : ℚ × ℚ) => (acc.1 + acc.2 * p.2, acc.2 * (1 - p.1)))
        (tot, mp)).1 ∧
    (rest.foldl
        (fun (acc : ℚ × ℚ) (p : ℚ × ℚ) => (acc.1 + acc.2 * p.2, acc.2 * (1 - p.1)))
        (tot, mp)).1 ≤ tot + (rest.map Prod.snd).sum ∧
    0 ≤ (rest.foldl
        (fun (acc : ℚ × ℚ) (p : ℚ × ℚ) => (acc.1 + acc.2 * p.2, acc.2 * (1 - p.1)))
        (tot, mp)).2 ∧
    (rest.foldl
        (fun (acc : ℚ × ℚ) (p : ℚ × ℚ) => (acc.1 + acc.2 * p.2, acc.2 * (1 - p.1)))
        (tot, mp)).2 ≤ 1 := by
  induction rest with
  | nil =>
    intro tot mp h0 h1 _
    simp
    exact ⟨h0, h1⟩
  | cons p rest ih =>
    intro tot mp h0 h1 hall
    have hp := hall p (List.mem_cons_self p rest)
    have hrest : ∀ q ∈ rest, 0 ≤ q.1 ∧ q.1 ≤ 1 ∧ 0 ≤ q.2 :=
      fun q hq => hall q (List.mem_cons_of_mem p hq)
    have hmp0 : (0 : ℚ) ≤ mp * (1 - p.1) := by
      have : (0 : ℚ) ≤ 1 - p.1 := by linarith [hp.2.1]
      exact mul_nonneg h0 this
    have hmp1 : mp * (1 - p.1) ≤ 1 := by
      have h1p : (1 : ℚ) - p.1 ≤ 1 := by linarith [hp.1]
      have h1p0 : (0 : ℚ) ≤ 1 - p.1 := by linarith [hp.2.1]
      calc mp * (1 - p.1) ≤ 1 * (1 - p.1) := mul_le_mul_of_nonneg_right h1 h1p0
        _ = 1 - p.1 := one_mul _
        _ ≤ 1 := h1p
    have hstep0 : tot ≤ tot + mp * p.2 := by
      have := mul_nonneg h0 hp.2.2
      linarith
    have hstep1 : tot + mp * p.2 ≤ tot + p.2 := by
      have : mp * p.2 ≤ 1 * p.2 := mul_le_mul_of_nonneg_right h1 hp.2.2
      linarith
    have := ih (tot + mp * p.2) (mp * (1 - p.1)) hmp0 hmp1 hrest
    refine ⟨?_, ?_, ?_, ?_⟩
    · simp only [List.foldl_cons]
      exact le_trans hstep0 this.1
    · simp only [List.foldl_cons, List.map_cons, List.sum_cons]
      calc (rest.foldl _ (tot + mp * p.2, mp * (1 - p.1))).1
          ≤ tot + mp * p.2 + (rest.map Prod.snd).sum := this.2.1
        _ ≤ tot + p.2 + (rest.map Prod.snd).sum := by linarith
        _ = tot + (p.2 + (rest.map Prod.snd).sum) := by ring
    · simp only [List.foldl_cons]
      exact this.2.2.1
    · simp only [List.foldl_cons]
      exact this.2.2.2

/-- Claim C7 (amended): for every hierarchy and per-level hit rates in
`[0, 1]` (with nonnegative latencies), the collector's AMAT satisfies
`L1 latency ≤ AMAT ≤ L1 latency + (sum of deeper-level latencies) +
memory latency`.  The claimed upper bound without the intermediate-level
latencies holds only for single-level hierarchies. -/
theorem c7_amat_within_total_latency_bounds (l1Lat l1HitRate memLat : ℚ)
    (rest : List (ℚ × ℚ)) (hm : 0 ≤ memLat)
    (hr0 : 0 ≤ l1HitRate) (hr1 : l1HitRate ≤ 1)
    (hrest : ∀ p ∈ rest, 0 ≤ p.1 ∧ p.1 ≤ 1 ∧ 0 ≤ p.2) :
    l1Lat ≤ collectAMAT l1Lat l1HitRate rest memLat ∧
    collectAMAT l1Lat l1HitRate rest memLat ≤
      l1Lat + (rest.map Prod.snd).sum + memLat := by
  have hb := amatFold_bounds rest l1Lat (1 - l1HitRate)
    (by linarith) (by linarith) hrest
  unfold collectAMAT
  dsimp only
  constructor
  · have : 0 ≤ (rest.foldl
        (fun (acc : ℚ × ℚ) (p : ℚ × ℚ) => (acc.1 + acc.2 * p.2, acc.2 * (1 - p.1)))
        (l1Lat, 1 - l1HitRate)).2 * memLat := mul_nonneg hb.2.2.1 hm
    linarith [hb.1]
  · have : (rest.foldl
        (fun (acc : ℚ × ℚ) (p : ℚ × ℚ) => (acc.1 + acc.2 * p.2, acc.2 * (1 - p.1)))
        (l1Lat, 1 - l1HitRate)).2 * memLat ≤ 1 * memLat :=
      mul_le_mul_of_nonneg_right hb.2.2.2 hm
    have h1 := hb.2.1
    simp only [one_mul] at this
    linarith

/-- Witness for the amended C7 at the Scenario-6 numbers: L1 latency 1, hit
rate 4/5; L2 latency 10, hit rate 1/2; memory latency 100 (AMAT = 13). -/
theorem c7_amat_within_total_latency_bounds_witness :
    ((0 : ℚ) ≤ 100 ∧ (0 : ℚ) ≤ 4/5 ∧ (4/5 : ℚ) ≤ 1 ∧
     (∀ p ∈ [((1/2 : ℚ), (10 : ℚ))], 0 ≤ p.1 ∧ p.1 ≤ 1 ∧ 0 ≤ p.2)) ∧
    ((1 : ℚ) ≤ collectAMAT 1 (4/5) [(1/2, 10)] 100 ∧
     collectAMAT 1 (4/5) [(1/2, 10)] 100 ≤
       1 + ([((1/2 : ℚ), (10 : ℚ))].map Prod.snd).sum + 100) :=
  ⟨⟨by norm_num, by norm_num, by norm_num, by
      intro p hp
      simp only [List.mem_singleton] at hp
      subst hp
      norm_num⟩,
   c7_amat_within_total_latency_bounds 1 (4/5) 100 [(1/2, 10)]
     (by norm_num) (by norm_num) (by norm_num)
     (by
       intro p hp
       simp only [List.mem_singleton] at hp
       subst hp
       norm_num)⟩

/-- Claim C8 (counterexample): a cache whose size (96 B) is not a power of
two is constructed without any error — there is no `ConfigError` path in
the code — and its first access completes normally. -/
theorem c8_invalid_geometry_accepted :
    validGeometry cfgC8Bad = false ∧
    (cacheInit cfgC8Bad lruPolicy ([] : LRUSt)).entries.length = 1 ∧
    ((cacheInit cfgC8Bad lruPolicy ([] : LRUSt)).access 0x0 .Read).1.hit = false ∧
    ((cacheInit cfgC8Bad lruPolicy ([] : LRUSt)).access 0x0 .Read).1.latency =
      cfgC8Bad.accessLatency := by
  refine ⟨?_, ?_, ?_, ?_⟩ <;> decide

/-- Claim C8 (amended): construction never fails and defers nothing — for
every configuration, valid or not, `Cache::Cache` unconditionally produces
a cache of `getNumSets × getNumWays` invalid entries with zero counters. -/
theorem c8_construction_is_total {π : Type} (cfg : CacheConfig) (pol : Policy π)
    (st : π) :
    (cacheInit cfg pol st).entries =
      List.replicate cfg.getNumSets (List.replicate cfg.getNumWays {}) ∧
    (cacheInit cfg pol st).hits = 0 ∧ (cacheInit cfg pol st).misses = 0 :=
  ⟨rfl, rfl, rfl⟩

/-- Claim C9: for `B + S ≤ 64` and a 64-bit address, the three decode
functions execute no shift by 64 or more (every checked shift succeeds);
and when `S = 0` the index is 0 and the tag is `a >> B`. -/
theorem c9_decode_guards_are_safe (a b s : Nat) (ha : a < 2 ^ 64)
    (hbs : b + s ≤ 64) :
    (getTagCk a b s).isSome = true ∧ (getIndexCk a b s).isSome = true ∧
    (getBlockOffsetCk a b).isSome = true ∧
    (s = 0 → getIndexCk a b s = some 0 ∧ getTagCk a b s = some (a >>> b)) := by
  refine ⟨?_, ?_, ?_, ?_⟩
  · unfold getTagCk shrCk
    split
    · rfl
    · rw [if_pos (by omega)]; rfl
  · unfold getIndexCk shrCk shlCk
    split
    · rfl
    · split
      · rfl
      · rw [if_pos (by omega)]
        simp only [Option.some_bind]
        split
        · rfl
        · rw [if_pos (by omega)]; rfl
  · unfold getBlockOffsetCk shlCk
    split
    · rfl
    · split
      · rfl
      · rw [if_pos (by omega)]; rfl
  · intro hs
    subst hs
    constructor
    · unfold getIndexCk
      rw [if_pos rfl]
    · unfold getTagCk shrCk
      split
      · have hb : b = 64 := by omega
        subst hb
        have : a >>> 64 = 0 := by
          rw [Nat.shiftRight_eq_div_pow]
          exact Nat.div_eq_of_lt ha
        rw [this]
      · rw [Nat.add_zero, if_pos (by omega)]

/-- Witness for C9 at `a = 0x1234`, `B = 6`, `S = 58` (so `B + S = 64`). -/
theorem c9_decode_guards_are_safe_witness :
    (0x1234 < 2 ^ 64 ∧ 6 + 58 ≤ 64) ∧
    ((getTagCk 0x1234 6 58).isSome = true ∧ (getIndexCk 0x1234 6 58).isSome = true ∧
     (getBlockOffsetCk 0x1234 6).isSome = true ∧
     (58 = 0 → getIndexCk 0x1234 6 58 = some 0 ∧
       getTagCk 0x1234 6 58 = some (0x1234 >>> 6))) :=
  ⟨by constructor <;> decide,
   c9_decode_guards_are_safe 0x1234 6 58 (by decide) (by decide)⟩

/-- Claim C10: when the L1 access hits, `CacheHierarchy::access` returns
immediately with L1's latency; every lower level — entries, counters and
replacement state — is returned unchanged, so nothing (including a
write-through write hit) propagates below L1. -/
theorem c10_l1_hit_leaves_lower_levels_unchanged {π : Type} (c0 : Cache π)
    (rest : List (Cache π)) (a : Nat) (t : AccessType)
    (hhit : (c0.access a t).1.hit = true) :
    hierAccess ⟨c0 :: rest⟩ a t =
      (((c0.access a t).1.latency, true), ⟨(c0.access a t).2 :: rest⟩) := by
  simp only [hierAccess, hhit, if_true]

/-- Witness for C10: in the warmed-up two-level hierarchy `⟨c10L1 :: c10Rest⟩`
a read of `0x0` hits L1 and the conclusion holds. -/
theorem c10_l1_hit_leaves_lower_levels_unchanged_witness :
    (c10L1.access 0x0 .Read).1.hit = true ∧
    hierAccess ⟨c10L1 :: c10Rest⟩ 0x0 .Read =
      (((c10L1.access 0x0 .Read).1.latency, true),
       ⟨(c10L1.access 0x0 .Read).2 :: c10Rest⟩) :=
  ⟨by decide,
   c10_l1_hit_leaves_lower_levels_unchanged c10L1 c10Rest 0x0 .Read (by decide)⟩

/-- Claim C3 (counterexample): in the two-level exclusive hierarchy
`hierC3` (each level a single 64 B block, L1 without write-allocate), after
reads of `0x0` and `0x40` L1 holds `0x40` (clean, loaded by a read) and L2
holds `0x0`.  The write to `0x0` then misses in L1, hits in L2, and the
promotion force-installs `0x0` into L1, displacing the valid block `0x40 ≠
0x0`; because that victim was clean, `forceEntry` reports no eviction, the
tracker stays empty, and `0x40` is installed nowhere: after the completed
access it is valid in neither level, refuting the claim. -/
theorem c3_clean_promote_displacement_lost :
    hierContains hierC3Mid 0 0x40 = true ∧
    hierContains hierC3Mid 1 0x0 = true ∧
    hierContains hierC3Fin 0 0x0 = true ∧
    hierContains hierC3Fin 0 0x40 = false ∧
    hierContains hierC3Fin 1 0x40 = false := by
  refine ⟨?_, ?_, ?_, ?_, ?_⟩ <;> decide

/-- Claim C3 (amended): in a two-level hierarchy with Exclusive L2 (in-range
policies, wellformed levels, 64-bit address), a block displaced from L1 is
victim-cached into L2 exactly when the displacement is reported.  Part 1:
a valid block displaced by the L1 miss allocation is always reported, and
ends up installed in L2 unless its block address equals the fetched one.
Part 2: a block displaced by the force-install of a promoted L2 hit is
installed in L2 when `forceEntry` reports it — which it does only for a
valid-and-dirty victim, so a clean promotion victim is silently lost. -/
theorem c3_displaced_block_installed_when_reported {π : Type}
    (c0 c1 : Cache π) (a : Nat) (t : AccessType)
    (hexcl : c1.cfg.inclusionPolicy = .Exclusive)
    (hp0 : PolicyOk c0.pol) (hp1 : PolicyOk c1.pol)
    (hwf0 : CacheWF c0) (hwf1 : CacheWF c1) (ha : a < 2 ^ 64) :
    (∀ ev, (c0.access a t).1.evictedAddress = some ev → (ev == a) = false →
      hierContains (hierAccess ⟨[c0, c1]⟩ a t).2 1 ev = true) ∧
    (∀ ent ev, (c0.access a t).1.hit = false →
      (c1.access a t).1.hit = true →
      ((c1.access a t).2).getEntry a = some ent →
      ((c0.access a t).2.forceEntry a ent t).1.evictedAddress = some ev →
      (ev == a) = false →
      hierContains (hierAccess ⟨[c0, c1]⟩ a t).2 1 ev = true) := by
  constructor
  · intro ev hev hne
    obtain ⟨hhit0, hf0, hcond0, hevlt⟩ := access_evAddr_some c0 a t ev hev
    have hee0 : (c0.access a t).1.evictedEntry = none := access_evEntry_none c0 a t
    have htr0 : trackerOf (c0.access a t).1 (c0.access a t).2 none =
        some (ev, fallbackEntry (c0.access a t).2 ev) := by
      rw [trackerOf_someAddr _ _ _ _ hev, hee0]
    rw [hierAccess_twoLevel c0 c1 a t hexcl]
    rcases hst0 : c0.getSetAndTag a with ⟨set0, tag0⟩
    have hf0x : c0.findEntry set0 tag0 = none := by
      rw [hst0] at hf0
      exact hf0
    have hset0 : set0 < c0.entries.length := by
      have := getSetAndTag_fst_lt c0 a hwf0 ha
      rwa [hst0] at this
    have hrow0 : 0 < (c0.entries.getD set0 []).length := hwf0.2.2.1 set0 hset0
    have hvp0 : (c0.pol.getVictim c0.polSt set0 (c0.entries.getD set0 []).length).1 <
        (c0.entries.getD set0 []).length := hp0 _ _ _ hrow0
    have hcont : (c0.access a t).2.containsAddr a = true :=
      alloc_contains_self c0 a t hst0 rfl rfl hf0x hcond0 hset0 hvp0
    by_cases h2 : (c1.access a t).1.hit = true
    · rcases hge : ((c1.access a t).2).getEntry a with _ | ent
      · rw [hier2Step_promoteNone_eq c0 c1 a t hhit0 h2 hge, htr0,
            applyTracker_some_single _ _ _ _ hne, hierContains_pair]
        exact twoStep_l2_install c1 _ ev _ .Write hp1 hwf1 hevlt
          (access_cfg c1 a t) (access_pol c1 a t) (access_entries_len c1 a t)
          (fun s => access_row_len c1 a t s)
      · rcases hst1 : ((c0.access a t).2).getSetAndTag a with ⟨set1, tag1⟩
        have hcont1 : (((c0.access a t).2).findEntry set1 tag1).isSome = true := by
          have h3 : (((c0.access a t).2).findEntry
              (((c0.access a t).2).getSetAndTag a).1
              (((c0.access a t).2).getSetAndTag a).2).isSome = true := hcont
          rw [hst1] at h3
          exact h3
        rcases Option.isSome_iff_exists.mp hcont1 with ⟨w, hfc⟩
        have hfcev : (((c0.access a t).2).forceEntry a ent t).1.evictedAddress = none := by
          rw [forceEntry_found_eq _ a ent t hst1 hfc]
        rw [hier2Step_promote_eq c0 c1 a t ent hhit0 h2 hge,
            trackerOf_noneAddr _ _ _ hfcev, htr0,
            applyTracker_some_single _ _ _ _ hne, hierContains_pair]
        exact twoStep_l2_install c1 _ ev _ .Write hp1 hwf1 hevlt
          (by rw [invalidate_cfg, access_cfg])
          (by rw [invalidate_pol, access_pol])
          (by rw [invalidate_entries_len, access_entries_len])
          (fun s => by rw [invalidate_row_len, access_row_len])
    · rw [Bool.not_eq_true] at h2
      rw [hier2Step_allMissAlloc_eq c0 c1 a t hhit0 h2 hcond0, htr0,
          applyTracker_some_single _ _ _ _ hne, hierContains_pair]
      exact twoStep_l2_install c1 _ ev _ .Write hp1 hwf1 hevlt
        (by rw [invalidate_cfg, access_cfg])
        (by rw [invalidate_pol, access_pol])
        (by rw [invalidate_entries_len, access_entries_len])
        (fun s => by rw [invalidate_row_len, access_row_len])
  · intro ent ev hhit0 h2 hge hfev hne
    have hevlt : ev < 2 ^ 64 := forceEntry_evAddr_lt _ a ent t ev hfev
    rw [hierAccess_twoLevel c0 c1 a t hexcl,
        hier2Step_promote_eq c0 c1 a t ent hhit0 h2 hge,
        trackerOf_someAddr _ _ _ _ hfev,
        applyTracker_some_single _ _ _ _ hne, hierContains_pair]
    exact twoStep_l2_install c1 _ ev _ .Write hp1 hwf1 hevlt
      (by rw [invalidate_cfg, access_cfg])
      (by rw [invalidate_pol, access_pol])
      (by rw [invalidate_entries_len, access_entries_len])
      (fun s => by rw [invalidate_row_len, access_row_len])

/-- Witness for the amended C3 (Part 1) on a concrete pair of single-block
levels with the trivial policy: the read of `0x40` displaces the valid
block `0x0` from the warmed L1, and after the completed access that block
is resident in the exclusive L2. -/
theorem c3_displaced_block_installed_when_reported_witness :
    hierContains (hierAccess ⟨[c3wL1, c3wL2]⟩ 0x40 .Read).2 1 0x0 = true := by
  refine (c3_displaced_block_installed_when_reported c3wL1 c3wL2 0x40 .Read
    ?_ ?_ ?_ ?_ ?_ ?_).1 0x0 ?_ ?_
  · rfl
  · exact zeroPolicy_ok
  · exact zeroPolicy_ok
  · decide
  · decide
  · decide
  · decide
  · decide

/-- Claim C2 (counterexample): with unequal block sizes the exclusивe
invariant fails.  In `hierC2` (L1 one 64 B block, L2 one 128 B block,
Exclusive), after reads of `0x40` then `0x0`, the final victim-caching of
L1's evicted block `0x40` re-installs L2's 128-byte block 0 — which also
covers `0x0` — while L1 holds `0x0` from its own allocation: the block of
the accessed address `0x0` is valid in both levels after the completed
access. -/
theorem c2_unequal_blocks_double_residency :
    hierContains (runTrace hierC2 [(0x40, .Read), (0x0, .Read)]) 0 0x0 = true ∧
    hierContains (runTrace hierC2 [(0x40, .Read), (0x0, .Read)]) 1 0x0 = true := by
  constructor <;> decide

/-- Claim C2 (amended): in a two-level hierarchy whose L2 is Exclusive and
whose two levels use the same block offset width, starting from wellformed,
tag-unique levels holding no common block, after any trace of completed
64-bit accesses no block is valid in both levels — in particular the block
of each accessed address is valid in at most one of L[0] and L[1].  (With
unequal block sizes the property fails.) -/
theorem c2_exclusive_at_most_one_copy {π : Type} :
    ∀ (tr : List (Nat × AccessType)) (c0 c1 : Cache π),
    c1.cfg.inclusionPolicy = .Exclusive →
    c0.cfg.getBlockOffsetBits = c1.cfg.getBlockOffsetBits →
    PolicyOk c0.pol → PolicyOk c1.pol →
    CacheWF c0 → CacheWF c1 → SetUniq c0 → SetUniq c1 →
    (∀ y, y < 2 ^ 64 → ¬(c0.containsAddr y = true ∧ c1.containsAddr y = true)) →
    (∀ p ∈ tr, p.1 < 2 ^ 64) →
    ∀ x, x < 2 ^ 64 →
    ¬(hierContains (runTrace ⟨[c0, c1]⟩ tr) 0 x = true ∧
      hierContains (runTrace ⟨[c0, c1]⟩ tr) 1 x = true) := by
  intro tr
  induction tr with
  | nil =>
    intro c0 c1 _ _ _ _ _ _ _ _ hdisj _ x hx
    exact hdisj x hx
  | cons p tr ih =>
    rcases p with ⟨a, t⟩
    intro c0 c1 hexcl hB hp0 hp1 hwf0 hwf1 hsu0 hsu1 hdisj htr x hx
    have hstep : runTrace ⟨[c0, c1]⟩ ((a, t) :: tr) =
        runTrace (hierAccess ⟨[c0, c1]⟩ a t).2 tr := rfl
    have ha : a < 2 ^ 64 := htr (a, t) (List.mem_cons_self _ _)
    obtain ⟨cL1, cL2, heq, hcfg1, hpol1, hwfL1, hsuL1, hcfg2, hpol2, hwfL2, hsuL2,
      hdisj2⟩ := hier2Step_preserves c0 c1 a t hB hp0 hp1 hwf0 hwf1 hsu0 hsu1 hdisj ha
    rw [hstep, hierAccess_twoLevel c0 c1 a t hexcl, heq]
    exact ih cL1 cL2 (by rw [hcfg2]; exact hexcl) (by rw [hcfg1, hcfg2]; exact hB)
      (by rw [hpol1]; exact hp0) (by rw [hpol2]; exact hp1)
      hwfL1 hwfL2 hsuL1 hsuL2 hdisj2
      (fun p hp => htr p (List.mem_cons_of_mem _ hp)) x hx

/-- Witness for the amended C2 on a concrete equal-block-size pair of fresh
levels with the trivial policy, over the trace `R 0x0, R 0x40`. -/
theorem c2_exclusive_at_most_one_copy_witness :
    ¬(hierContains (runTrace ⟨[c2wL1, c2wL2]⟩ [(0x0, .Read), (0x40, .Read)]) 0 0x0 = true ∧
      hierContains (runTrace ⟨[c2wL1, c2wL2]⟩ [(0x0, .Read), (0x40, .Read)]) 1 0x0 = true) := by
  refine c2_exclusive_at_most_one_copy [(0x0, .Read), (0x40, .Read)] c2wL1 c2wL2
    rfl rfl zeroPolicy_ok zeroPolicy_ok (by decide) (by decide)
    (cacheInit_setUniq _ _ _) (cacheInit_setUniq _ _ _)
    ?_ (by decide) 0x0 (by decide)
  intro y hy hand
  have h2 : c2wL1.containsAddr y = false := cacheInit_contains_false _ _ _ y
  rw [h2] at hand
  exact Bool.false_ne_true hand.1

end CacheSim
